import Mathlib

/-!
Verification of the Spacetime-Memory-Lattice repository.

Shallow embedding of the Python sources:
  coordinate.py      : class Coordinate (parse/format, base conversions, ripple increment)
  navigation_hub.py  : class DefaultPath (the hash-seeded walker), single_step,
                       store_conversation, restore_conversation, store_all_conversations
  data_manager.py    : class DataManager (sharded JSON bucket store)
  block_data.py      : dataclass BlockData

Python unbounded ints are modelled by Nat where values are provably non-negative
and by Int where subtraction may go negative (Python `%` with a positive modulus
equals Int.emod, Python `//` equals Int.ediv).  `hashlib.blake2b` is Python
standard-library code, not part of this repository; it is modelled as an
explicit function parameter `blake2b8 : String → Nat` (the 8-byte digest read
big-endian), since no claim depends on the concrete digest values.  The
filesystem is modelled as an association list from bucket-file path to file
state (absent = not present in the list, corrupt = unparsable JSON, parsed =
the decoded top-level JSON object).
-/

namespace SML

/-! ### String helpers

`splitWSAux`/`splitWS` model Python `str.split()` (split on whitespace runs,
discarding empty pieces); `joinSpace` models `' '.join(...)`; `hasSub` models
the Python substring test `needle in hay`. -/

def splitWSAux : List Char → List Char → List String
  | [], acc => if acc.isEmpty then [] else [String.mk acc.reverse]
  | ch :: rest, acc =>
    if ch.isWhitespace then
      if acc.isEmpty then splitWSAux rest []
      else String.mk acc.reverse :: splitWSAux rest []
    else splitWSAux rest (ch :: acc)

def splitWS (s : String) : List String := splitWSAux s.data []

def joinSpace : List String → String
  | [] => ""
  | [t] => t
  | t :: rest => t ++ " " ++ joinSpace rest

def isPref : List Char → List Char → Bool
  | [], _ => true
  | _ :: _, [] => false
  | a :: as, b :: bs => a == b && isPref as bs

def hasSub (needle : List Char) : List Char → Bool
  | [] => isPref needle []
  | h :: t => isPref needle (h :: t) || hasSub needle t

/-! ### Constants (navigation_hub.py lines 10-12) -/

def M : Nat := 2 ^ 32
def A : Nat := 0x9E3779B9
def SPACE_SIZE : Nat := 60 ^ 6

/-! ### Coordinate (coordinate.py)

The digit list is stored exactly as the Python list `self.coordinates`:
index 0 is the first token of the coordinate string and is treated as the
least-significant base-60 digit by `baseTenConv`. -/

/-- Python `int(p)` restricted to digit strings. -/
def strVal (p : String) : Nat := p.data.foldl (fun n c => n * 10 + (c.toNat - 48)) 0

/-- Python `p.isdigit()` for ASCII digit tokens. -/
def isDigits (p : String) : Bool := !p.data.isEmpty && p.data.all Char.isDigit

/-- Coordinate.parse_coordinate (coordinate.py lines 37-44). -/
def parse_coordinate (s : String) : Except String (List Nat) :=
  if !(s.data.contains ' ') then
    .error "Invalid input. Expected space-separated coordinate."
  else
    let parts := splitWS s
    if parts.length == 6 && parts.all (fun p => isDigits p && decide (strVal p < 60)) then
      .ok (parts.map strVal)
    else
      .error "Each of the 6 numbers must be 0-59."

/-- Coordinate.get_coordinates (coordinate.py lines 46-47): join digits with spaces. -/
def get_coordinates (digits : List Nat) : String := joinSpace (digits.map toString)

/-- Coordinate.baseTenConv (coordinate.py lines 53-56): sum of d * 60^i over enumerate. -/
def baseTenConv (digits : List Nat) : Nat :=
  ((digits.enum.map fun p => p.2 * 60 ^ p.1).sum)

/-- The divmod loop of coord_conv/strCoord_conv, little-endian digits of `m`.
The first argument is fuel: the Python while-loop runs at most 6 times because
the input was first reduced mod 60^6, so fuel 6 below is exact. -/
def toDigitsAux : Nat → Nat → List Nat
  | _, 0 => []
  | 0, _ + 1 => []
  | fuel + 1, m + 1 => ((m + 1) % 60) :: toDigitsAux fuel ((m + 1) / 60)

/-- The zero-padding loop `while len(digits) < 6: digits.append(0)`. -/
def padTo6 (l : List Nat) : List Nat := l ++ List.replicate (6 - l.length) 0

/-- Coordinate.coord_conv (coordinate.py lines 68-76): reduce mod 60^6 (Python `%`,
non-negative result, hence Int.emod), then divmod into 6 little-endian digits. -/
def coord_conv (number : Int) : List Nat :=
  padTo6 (toDigitsAux 6 (number % (SPACE_SIZE : Int)).toNat)

/-- Coordinate.strCoord_conv (coordinate.py lines 58-66): same digit loop as
coord_conv (the source duplicates it), then joined with spaces. -/
def strCoord_conv (number : Int) : String := joinSpace ((coord_conv number).map toString)

/-- The loop body of Coordinate._update_coordinates (coordinate.py lines 21-34),
returning the new digit list and the delta applied to `self.universes`.
A wrap at the last position (Python `i == len(self.coordinates) - 1`) adjusts
the universe counter; `break` on no wrap leaves the remaining digits unchanged. -/
def updateCoordinates (delta : Int) : List Int → List Int × Int
  | [] => ([], 0)
  | d :: rest =>
    let x := d + delta
    if delta > 0 ∧ x = 60 then
      match rest with
      | [] => ([0], 1)
      | _ :: _ =>
        let (r, u) := updateCoordinates delta rest
        (0 :: r, u)
    else if delta < 0 ∧ x = -1 then
      match rest with
      | [] => ([59], -1)
      | _ :: _ =>
        let (r, u) := updateCoordinates delta rest
        (59 :: r, u)
    else (x :: rest, 0)

/-- Class Coordinate state (coordinate.py lines 3-6). -/
structure Coordinate where
  coordinates : List Int
  universes : Int
  img_universe : Int
deriving DecidableEq

/-- Coordinate.increment (coordinate.py line 17): _update_coordinates(1). -/
def Coordinate.increment (c : Coordinate) : Coordinate :=
  let r := updateCoordinates 1 c.coordinates
  { c with coordinates := r.1, universes := c.universes + r.2 }

/-- Coordinate.decrement (coordinate.py line 18): _update_coordinates(-1). -/
def Coordinate.decrement (c : Coordinate) : Coordinate :=
  let r := updateCoordinates (-1) c.coordinates
  { c with coordinates := r.1, universes := c.universes + r.2 }

/-! ### DefaultPath (navigation_hub.py lines 84-129) -/

/-- DefaultPath.coord_const (navigation_hub.py lines 106-111). -/
def coord_const (c : List Nat) : Nat :=
  (c.getD 0 0 * 13 + c.getD 1 0 * 17 + c.getD 2 0 * 19 +
   c.getD 3 0 * 23 + c.getD 4 0 * 29 + c.getD 5 0 * 31) &&& 0xFFFFFFFF

/-- DefaultPath.seed_imag (navigation_hub.py lines 96-99): blake2b digest of
"start_str|key" read big-endian, reduced mod 2^32. -/
def seed_imag (blake2b8 : String → Nat) (coord_dec : Int) (key : String) : Nat :=
  blake2b8 (strCoord_conv coord_dec ++ "|" ++ key) % M

/-- DefaultPath.seed_X (navigation_hub.py lines 101-104): blake2b digest of
"{coord_dec}|{key}" read big-endian, reduced mod 60^6. -/
def seed_X (blake2b8 : String → Nat) (coord_dec : Int) (key : String) : Nat :=
  blake2b8 (toString coord_dec ++ "|" ++ key) % SPACE_SIZE

/-- State of a DefaultPath walker (navigation_hub.py lines 85-94). -/
structure DefaultPath where
  start_list : List Nat
  coord_dec : Int
  key : String
  imag : Nat
  X : Int
deriving DecidableEq

/-- DefaultPath.__init__ (navigation_hub.py lines 85-94) applied to a digit list. -/
def DefaultPath.init (blake2b8 : String → Nat) (start_list : List Nat) (key : String) :
    DefaultPath :=
  let coord_dec : Int := (baseTenConv start_list : Nat)
  { start_list := start_list
    coord_dec := coord_dec
    key := key
    imag := seed_imag blake2b8 coord_dec key
    X := (seed_X blake2b8 coord_dec key : Nat) }

/-- DefaultPath.imag_step (navigation_hub.py lines 113-115). -/
def imag_step (prev curr : List Nat) (imag : Nat) : Nat :=
  let mix := imag ^^^ coord_const prev ^^^ coord_const curr
  (mix * A + 1) &&& 0xFFFFFFFF

/-- DefaultPath.real_step (navigation_hub.py lines 117-118): Python `%` on a
possibly negative left operand with positive modulus is Int.emod. -/
def real_step (X real : Int) (imag : Nat) : Int :=
  (real * real - (imag : Int) * (imag : Int) + X) % (SPACE_SIZE : Int)

/-- DefaultPath.step (navigation_hub.py lines 120-129): returns the coordinate
string of the new coord_dec and the updated walker state. -/
def DefaultPath.step (p : DefaultPath) : String × DefaultPath :=
  let prev := coord_conv p.coord_dec
  let coord_dec := real_step p.X p.coord_dec p.imag
  let curr := coord_conv coord_dec
  let imag := imag_step prev curr p.imag
  (get_coordinates curr, { p with coord_dec := coord_dec, imag := imag })

/-- The state part of one step. -/
def stateStep (p : DefaultPath) : DefaultPath := p.step.2

/-- The walker state after k steps. -/
def walkState (p : DefaultPath) : Nat → DefaultPath
  | 0 => p
  | k + 1 => walkState (stateStep p) k

/-- Coordinate string at walk position k. -/
def coordAt (p : DefaultPath) (k : Nat) : String := strCoord_conv (walkState p k).coord_dec

/-- Imaginary register at walk position k. -/
def imagAt (p : DefaultPath) (k : Nat) : Nat := (walkState p k).imag

/-! ### single_step (navigation_hub.py lines 226-255)

The source calls `coord_obj.baseSixtyConv(real_next)` on line 244, but class
Coordinate defines no method `baseSixtyConv`, so every call that gets past the
two parses raises AttributeError.  The computations before that line are kept;
the AttributeError is modelled as the error result below. -/

def single_step (blake2b8 : String → Nat) (coord_str : String) (_imag : Nat)
    (key start_coord_str : String) : Except String (String × Nat) := do
  let cl ← parse_coordinate coord_str
  let sl ← parse_coordinate start_coord_str
  let _coord_dec : Int := (baseTenConv cl : Nat)
  let start_dec : Int := (baseTenConv sl : Nat)
  let _X : Int := (blake2b8 (toString start_dec ++ "|" ++ key) % SPACE_SIZE : Nat)
  .error "AttributeError: Coordinate object has no attribute baseSixtyConv"

/-! ### BlockData (block_data.py) and the DataManager store (data_manager.py)

BlockData.block is the dict `{"user": ..., "assistant": ...}`; it is flattened
into the two string fields below.  The optional fields `connections`, `data`
and `layers` are never set by the archiver flows under verification and are
omitted. -/

structure BlockData where
  user : String
  assistant : String
  univ : Int
  attachments : List String
deriving DecidableEq

/-- State of one bucket JSON file on disk. -/
inductive FileState where
  | corrupt
  | parsed (entries : List (String × List BlockData))
deriving DecidableEq

/-- The filesystem: bucket-file path to file state; a path not in the list is
an absent file. -/
abbrev FS := List (String × FileState)

/-- Python dict assignment `data[k] = v` on an association list. -/
def upsert {β : Type} (k : String) (v : β) : List (String × β) → List (String × β)
  | [] => [(k, v)]
  | (k1, v1) :: rest => if k1 = k then (k, v) :: rest else (k1, v1) :: upsert k v rest

/-- The bucket-file path of DataManager._paths (data_manager.py lines 39-55):
with parts `[c6, c5, c4, c3, c2, c1]` the file is `.../c1/c2/c3/c4/c5.json`. -/
def jsonPath (parts : List String) : String :=
  "data/" ++ parts.getD 5 "" ++ "/" ++ parts.getD 4 "" ++ "/" ++ parts.getD 3 "" ++ "/" ++
    parts.getD 2 "" ++ "/" ++ parts.getD 1 "" ++ ".json"

/-- DataManager._paths (data_manager.py lines 39-55): returns (json_path, full_key);
raises ValueError unless the coordinate has exactly 6 parts. -/
def dmPaths (coordinate : String) : Except String (String × String) :=
  let parts := splitWS coordinate
  if parts.length == 6 then .ok (jsonPath parts, joinSpace parts)
  else .error "Coordinate must have exactly 6 parts."

/-- DataManager._load_json (data_manager.py lines 57-65): absent and corrupt
files are both read as the empty dict. -/
def loadJson (fs : FS) (path : String) : List (String × List BlockData) :=
  match fs.lookup path with
  | some (.parsed entries) => entries
  | _ => []

/-- Python max() on a list of ints (empty case never reached by the source). -/
def listMax : List Int → Int
  | [] => 0
  | x :: xs => xs.foldl max x

/-- Sort relation of `buckets.sort(key=lambda b: b.get("universe"))`.  Python
list.sort is a stable sort; `List.insertionSort` is also stable, and any two
stable sorts agree on every input, so the model is exact. -/
def leUniv (a b1 : BlockData) : Prop := a.univ ≤ b1.univ

instance : DecidableRel leUniv := fun a b1 => inferInstanceAs (Decidable (a.univ ≤ b1.univ))

/-- DataManager.create_coordinate_block (data_manager.py lines 77-111), without
the attachment-file copying (lines 85-97), which touches no bucket state.
On universe collision the incoming block is reassigned to max(existing)+1,
then the bucket is re-sorted ascending by universe and the file rewritten. -/
def create_coordinate_block (fs : FS) (coordinate : String) (block : BlockData) :
    Except String FS := do
  let (path, full_key) ← dmPaths coordinate
  let data := loadJson fs path
  let bucket := (data.lookup full_key).getD []
  let existing := bucket.map (fun bl => bl.univ)
  let block :=
    if block.univ ∈ existing then
      { block with univ := if existing.isEmpty then 0 else listMax existing + 1 }
    else block
  let bucket := (bucket ++ [block]).insertionSort leUniv
  .ok (upsert path (.parsed (upsert full_key bucket data)) fs)

/-- DataManager.load_coordinate_data (data_manager.py lines 114-117). -/
def load_coordinate_data (fs : FS) (coordinate : String) : Except String (List BlockData) := do
  let (path, full_key) ← dmPaths coordinate
  .ok (((loadJson fs path).lookup full_key).getD [])

/-- DataManager.coordinate_exists (data_manager.py lines 126-127). -/
def coordinate_exists (fs : FS) (coordinate : String) : Except String Bool := do
  let blocks ← load_coordinate_data fs coordinate
  .ok (!blocks.isEmpty)

/-! ### Conversation bundles and the archiver flows (navigation_hub.py lines 258-449) -/

/-- A conversation bundle as read from its JSON file; `messages` holds the
`content` strings of `messages[*]` in order. -/
structure ConvoBundle where
  title : String
  id : String
  messages : List String
  attachments : List String
deriving DecidableEq

/-- The pairing loop `for i in range(0, len(messages), 2)` with
`messages[i+1] if i+1 < len(messages) else ""`. -/
def pairUp : List String → List (String × String)
  | [] => []
  | [u] => [(u, "")]
  | u :: a :: rest => (u, a) :: pairUp rest

/-- The attachment filter `[att for att in attachments if att in user or att in bot]`. -/
def usedAtts (atts : List String) (u a : String) : List String :=
  atts.filter (fun t => hasSub t.data u.data || hasSub t.data a.data)

/-- The block-writing loop shared by store_conversation (navigation_hub.py lines
288-308) and store_all_conversations (lines 413-433): write one block per
message pair at the walker position, then step.  Returns the final filesystem,
the coordinate string reached after the last step, and the final walker. -/
def storeLoop (atts : List String) :
    FS → DefaultPath → String → List (String × String) →
    Except String (FS × String × DefaultPath)
  | fs, p, coord, [] => .ok (fs, coord, p)
  | fs, p, coord, (u, a) :: rest => do
    let blk : BlockData := ⟨u, a, (p.imag : Int), usedAtts atts u a⟩
    let fs1 ← create_coordinate_block fs coord blk
    let r := p.step
    storeLoop atts fs1 r.2 r.1 rest

/-- store_conversation (navigation_hub.py lines 258-310), with the interactive
inputs as parameters: start coordinate (already parsed to its digit list),
user-entered navigation key, the conversation bundle, and the store state. -/
def store_conversation (blake2b8 : String → Nat) (start_list : List Nat) (key : String)
    (bundle : ConvoBundle) (fs : FS) : Except String FS := do
  let p := DefaultPath.init blake2b8 start_list key
  let r ← storeLoop bundle.attachments fs p (strCoord_conv p.coord_dec) (pairUp bundle.messages)
  .ok r.1

/-- The break condition `if max_steps and steps >= max_steps` (navigation_hub.py
line 362): a max_steps of None or 0 is falsy and never breaks. -/
def maxStepsHit (maxSteps : Option Nat) (steps : Nat) : Bool :=
  match maxSteps with
  | none => false
  | some m => !(m == 0) && decide (m ≤ steps)

/-- The read-print loop of restore_conversation (navigation_hub.py lines
331-365).  Emissions are the printed (coordinate, universe, user, assistant)
tuples.  The first argument of the recursion is fuel: the Python loop has no
intrinsic bound and can run forever, in which case the result is `none` for
every fuel (a malformed coordinate, impossible on this flow, also gives none). -/
def restoreLoop (fs : FS) (maxSteps : Option Nat) :
    Nat → DefaultPath → String → Nat → Option (List (String × Nat × String × String))
  | 0, _, _, _ => none
  | fuel + 1, p, coord, steps =>
    match load_coordinate_data fs coord with
    | .error _ => none
    | .ok blocks =>
      if blocks.isEmpty then some []
      else
        match blocks.find? (fun bl => bl.univ == (p.imag : Int)) with
        | none => some []
        | some bl =>
          if maxStepsHit maxSteps (steps + 1) then some [(coord, p.imag, bl.user, bl.assistant)]
          else
            let r := p.step
            (restoreLoop fs maxSteps fuel r.2 r.1 (steps + 1)).map
              (fun l => (coord, p.imag, bl.user, bl.assistant) :: l)

/-- restore_conversation (navigation_hub.py lines 313-367) with the interactive
inputs as parameters (start coordinate already parsed to its digit list). -/
def restore_conversation (blake2b8 : String → Nat) (start_list : List Nat) (key : String)
    (fs : FS) (maxSteps : Option Nat) (fuel : Nat) :
    Option (List (String × Nat × String × String)) :=
  let p := DefaultPath.init blake2b8 start_list key
  restoreLoop fs maxSteps fuel p (strCoord_conv p.coord_dec) 0

/-- The blocks written by the store loop, in write order, as (coordinate,
universe, user, assistant) tuples. -/
def traceFrom (p : DefaultPath) : List (String × String) → List (String × Nat × String × String)
  | [] => []
  | (u, a) :: rest => (strCoord_conv p.coord_dec, p.imag, u, a) :: traceFrom (stateStep p) rest

/-- Order on directory entries used by Python sorted(os.listdir(...)). -/
def leDir (d1 d2 : String × ConvoBundle) : Prop := d1.1 ≤ d2.1

instance : DecidableRel leDir := fun d1 d2 => inferInstanceAs (Decidable (d1.1 ≤ d2.1))

/-- Python sorted(os.listdir(...)) over the conversation directories (a stable
sort, modelled by the stable `List.insertionSort`). -/
def sortDirs (dirs : List (String × ConvoBundle)) : List (String × ConvoBundle) :=
  dirs.insertionSort leDir

/-- The per-directory loop of store_all_conversations (navigation_hub.py lines
384-435): record (convo_name, current coordinate) in the index, seed the walker
with key = convo_name at the current coordinate string (which nav.default
parses), store all pairs, and continue from the coordinate after the last step.
The third result component records the key passed to the walker for each
imported bundle. -/
def storeAllGo (blake2b8 : String → Nat) :
    FS → String → List (String × ConvoBundle) →
    Except String (FS × List (String × String) × List String)
  | fs, _, [] => .ok (fs, [], [])
  | fs, cur, (name, bundle) :: rest => do
    let sl ← parse_coordinate cur
    let p := DefaultPath.init blake2b8 sl name
    let r ← storeLoop bundle.attachments fs p (strCoord_conv p.coord_dec) (pairUp bundle.messages)
    let rec1 ← storeAllGo blake2b8 r.1 r.2.1 rest
    .ok (rec1.1, (name, cur) :: rec1.2.1, name :: rec1.2.2)

/-- store_all_conversations (navigation_hub.py lines 370-449): starts at the
literal initial coordinate "00 00 00 00 00 00" and processes directories in
sorted order. -/
def store_all_conversations (blake2b8 : String → Nat) (dirs : List (String × ConvoBundle))
    (fs : FS) : Except String (FS × List (String × String) × List String) :=
  storeAllGo blake2b8 fs "00 00 00 00 00 00" (sortDirs dirs)

/-! ### Claim-side definitions (worded from the specification, for comparison) -/

/-- The mixing constant C of the specification, stated with mod 2^32 as the
spec writes it (the source uses a bitwise AND mask). -/
def coordConstSpec (c : List Nat) : Nat :=
  (13 * c.getD 0 0 + 17 * c.getD 1 0 + 19 * c.getD 2 0 +
   23 * c.getD 3 0 + 29 * c.getD 4 0 + 31 * c.getD 5 0) % 2 ^ 32

/-- The store/restore inverse property exactly as claim C1 states it: importing
a bundle into an initially empty store with (key, start) and restoring with the
same (key, start) and no step bound yields exactly the written blocks in write
order, whose (user, assistant) pairs are the original message pairing. -/
def C1Property (blake2b8 : String → Nat) (start_list : List Nat) (key : String)
    (bundle : ConvoBundle) : Prop :=
  ∃ fs fuel out,
    store_conversation blake2b8 start_list key bundle [] = .ok fs ∧
    restore_conversation blake2b8 start_list key fs none fuel = some out ∧
    out = traceFrom (DefaultPath.init blake2b8 start_list key) (pairUp bundle.messages) ∧
    out.map (fun e => (e.2.2.1, e.2.2.2)) = pairUp bundle.messages

/-! ### Arithmetic lemmas: base-60 digits -/

/-- Horner form of the enumerate-sum in baseTenConv. -/
def natVal : List Nat → Nat
  | [] => 0
  | d :: rest => d + 60 * natVal rest

lemma enumFrom_sum (l : List Nat) : ∀ n : Nat,
    ((l.enumFrom n).map fun p => p.2 * 60 ^ p.1).sum = 60 ^ n * natVal l := by
  induction l with
  | nil => intro n; simp [natVal]
  | cons d rest ih =>
    intro n
    simp only [List.enumFrom_cons, List.map_cons, List.sum_cons, ih (n + 1), natVal]
    ring

lemma baseTenConv_eq_natVal (l : List Nat) : baseTenConv l = natVal l := by
  have h := enumFrom_sum l 0
  simpa [baseTenConv] using h

lemma natVal_toDigitsAux : ∀ fuel m, m < 60 ^ fuel → natVal (toDigitsAux fuel m) = m := by
  intro fuel
  induction fuel with
  | zero => intro m hm; interval_cases m; rfl
  | succ fuel ih =>
    intro m hm
    match m with
    | 0 => rfl
    | m + 1 =>
      have hdiv : (m + 1) / 60 < 60 ^ fuel := by
        rw [Nat.div_lt_iff_lt_mul (by norm_num)]
        calc m + 1 < 60 ^ (fuel + 1) := hm
        _ = 60 ^ fuel * 60 := by ring
      simp only [toDigitsAux, natVal, ih _ hdiv]
      omega

lemma toDigitsAux_lt : ∀ fuel m d, d ∈ toDigitsAux fuel m → d < 60 := by
  intro fuel
  induction fuel with
  | zero =>
    intro m d hd
    match m with
    | 0 => simp [toDigitsAux] at hd
    | _ + 1 => simp [toDigitsAux] at hd
  | succ fuel ih =>
    intro m d hd
    match m with
    | 0 => simp [toDigitsAux] at hd
    | m + 1 =>
      simp only [toDigitsAux, List.mem_cons] at hd
      rcases hd with h | h
      · subst h; exact Nat.mod_lt _ (by norm_num)
      · exact ih _ _ h

lemma toDigitsAux_length : ∀ fuel m, (toDigitsAux fuel m).length ≤ fuel := by
  intro fuel
  induction fuel with
  | zero =>
    intro m
    match m with
    | 0 => simp [toDigitsAux]
    | _ + 1 => simp [toDigitsAux]
  | succ fuel ih =>
    intro m
    match m with
    | 0 => simp [toDigitsAux]
    | m + 1 =>
      simp only [toDigitsAux, List.length_cons]
      exact Nat.succ_le_succ (ih _)

lemma natVal_replicate_zero : ∀ k, natVal (List.replicate k 0) = 0 := by
  intro k
  induction k with
  | zero => rfl
  | succ k ih => simp [List.replicate, natVal, ih]

lemma natVal_append_replicate (l : List Nat) : ∀ k, natVal (l ++ List.replicate k 0) = natVal l := by
  induction l with
  | nil => intro k; simpa using natVal_replicate_zero k
  | cons d rest ih => intro k; simp [natVal, ih]

lemma natVal_padTo6 (l : List Nat) : natVal (padTo6 l) = natVal l :=
  natVal_append_replicate l _

lemma padTo6_length {l : List Nat} (h : l.length ≤ 6) : (padTo6 l).length = 6 := by
  unfold padTo6
  rw [List.length_append, List.length_replicate]
  omega

lemma coord_conv_length (n : Int) : (coord_conv n).length = 6 :=
  padTo6_length (toDigitsAux_length 6 _)

lemma coord_conv_mem_lt (n : Int) : ∀ d ∈ coord_conv n, d < 60 := by
  intro d hd
  unfold coord_conv padTo6 at hd
  rcases List.mem_append.mp hd with h | h
  · exact toDigitsAux_lt 6 _ d h
  · have := List.eq_of_mem_replicate h
    omega

lemma emod_toNat_lt (n : Int) : (n % (SPACE_SIZE : Int)).toNat < SPACE_SIZE := by
  have h1 : n % (SPACE_SIZE : Int) < (SPACE_SIZE : Int) :=
    Int.emod_lt_of_pos n (by norm_num [SPACE_SIZE])
  have h0 : (0 : Int) ≤ n % (SPACE_SIZE : Int) :=
    Int.emod_nonneg n (by norm_num [SPACE_SIZE])
  have h2 : (0 : Int) < (SPACE_SIZE : Int) := by norm_num [SPACE_SIZE]
  omega

/-- Value computed by coord_conv: the digits of any integer decode to its
non-negative residue mod 60^6. -/
lemma baseTenConv_coord_conv (n : Int) :
    baseTenConv (coord_conv n) = (n % (SPACE_SIZE : Int)).toNat := by
  rw [baseTenConv_eq_natVal]
  unfold coord_conv
  rw [natVal_padTo6]
  exact natVal_toDigitsAux 6 _ (by simpa [SPACE_SIZE] using emod_toNat_lt n)

/-! ### String lemmas: canonical coordinate strings round-trip through split/join -/

lemma tok_facts : ∀ d : Nat, d < 60 →
    (isDigits (toString d) && decide (strVal (toString d) = d) &&
     (toString d).data.all (fun c => !c.isWhitespace) && !(toString d).data.isEmpty) = true := by
  decide

lemma tok_strVal {d : Nat} (h : d < 60) : strVal (toString d) = d := by
  have := tok_facts d h
  simp only [Bool.and_eq_true, decide_eq_true_eq] at this
  exact this.1.1.2

lemma tok_isDigits {d : Nat} (h : d < 60) : isDigits (toString d) = true := by
  have := tok_facts d h
  simp only [Bool.and_eq_true] at this
  exact this.1.1.1

lemma tok_ne_nil {d : Nat} (h : d < 60) : (toString d).data ≠ [] := by
  have := tok_facts d h
  simp only [Bool.and_eq_true, Bool.not_eq_true'] at this
  intro hc
  rw [hc] at this
  simp at this

lemma tok_no_ws {d : Nat} (h : d < 60) : ∀ c ∈ (toString d).data, ¬ c.isWhitespace := by
  have := tok_facts d h
  simp only [Bool.and_eq_true, List.all_eq_true, Bool.not_eq_true'] at this
  intro c hc
  have hcc := this.1.2 c hc
  simp [hcc]

lemma splitWSAux_cons_ws {ch : Char} (hch : ch.isWhitespace = true) (cs acc) :
    splitWSAux (ch :: cs) acc =
      if acc.isEmpty then splitWSAux cs [] else String.mk acc.reverse :: splitWSAux cs [] := by
  simp [splitWSAux, hch]

lemma splitWSAux_cons_nws {ch : Char} (hch : ch.isWhitespace = false) (cs acc) :
    splitWSAux (ch :: cs) acc = splitWSAux cs (ch :: acc) := by
  simp [splitWSAux, hch]

lemma splitWSAux_token : ∀ (t restCs acc : List Char),
    (∀ c ∈ t, ¬ c.isWhitespace) →
    splitWSAux (t ++ restCs) acc = splitWSAux restCs (t.reverse ++ acc) := by
  intro t
  induction t with
  | nil => intro restCs acc _; rfl
  | cons c t ih =>
    intro restCs acc h
    have hc : c.isWhitespace = false := by
      have := h c (List.mem_cons_self c t)
      simpa using this
    rw [List.cons_append, splitWSAux_cons_nws hc,
      ih restCs (c :: acc) (fun x hx => h x (List.mem_cons_of_mem c hx))]
    simp

lemma splitWS_joinSpace : ∀ toks : List String,
    (∀ t ∈ toks, t.data ≠ [] ∧ ∀ c ∈ t.data, ¬ c.isWhitespace) →
    splitWS (joinSpace toks) = toks := by
  intro toks
  induction toks with
  | nil => intro _; rfl
  | cons t rest ih =>
    intro h
    have ht := h t (List.mem_cons_self t rest)
    have htne : (t.data.reverse).isEmpty = false := by
      rw [List.isEmpty_eq_false]
      simpa using ht.1
    match rest with
    | [] =>
      show splitWSAux (joinSpace [t]).data [] = [t]
      have hd : (joinSpace [t]).data = t.data ++ [] := by simp [joinSpace]
      rw [hd, splitWSAux_token t.data [] [] ht.2]
      show (if (t.data.reverse ++ []).isEmpty then [] else [String.mk (t.data.reverse ++ []).reverse]) = [t]
      rw [List.append_nil, htne]
      simp
    | t2 :: rest2 =>
      show splitWSAux (joinSpace (t :: t2 :: rest2)).data [] = t :: t2 :: rest2
      have hdata : (joinSpace (t :: t2 :: rest2)).data =
          t.data ++ (' ' :: (joinSpace (t2 :: rest2)).data) := by
        show (t ++ " " ++ joinSpace (t2 :: rest2)).data = _
        rw [String.data_append, String.data_append, List.append_assoc]
        rfl
      rw [hdata, splitWSAux_token t.data _ [] ht.2, List.append_nil,
        splitWSAux_cons_ws (by decide) _ _, htne]
      simp only [Bool.false_eq_true, if_false, List.reverse_reverse]
      have ih2 : splitWSAux (joinSpace (t2 :: rest2)).data [] = t2 :: rest2 :=
        ih (fun x hx => h x (List.mem_cons_of_mem t hx))
      rw [ih2]

/-- The canonical coordinate string of n splits back into its digit tokens. -/
lemma splitWS_strCoord (n : Int) :
    splitWS (strCoord_conv n) = (coord_conv n).map toString := by
  unfold strCoord_conv
  apply splitWS_joinSpace
  intro t ht
  rcases List.mem_map.mp ht with ⟨d, hd, rfl⟩
  have hlt := coord_conv_mem_lt n d hd
  exact ⟨tok_ne_nil hlt, tok_no_ws hlt⟩

lemma splitWS_strCoord_length (n : Int) : (splitWS (strCoord_conv n)).length = 6 := by
  rw [splitWS_strCoord, List.length_map, coord_conv_length]

lemma joinSpace_splitWS_strCoord (n : Int) :
    joinSpace (splitWS (strCoord_conv n)) = strCoord_conv n := by
  rw [splitWS_strCoord]; rfl

lemma joinSpace_mem_space : ∀ (t1 t2 : String) (rest : List String),
    ' ' ∈ (joinSpace (t1 :: t2 :: rest)).data := by
  intro t1 t2 rest
  show ' ' ∈ (t1 ++ " " ++ joinSpace (t2 :: rest)).data
  rw [String.data_append, String.data_append]
  exact List.mem_append.mpr (Or.inl (List.mem_append.mpr (Or.inr (by simp))))

/-- Parsing the single-space join of six canonical digit tokens recovers
exactly those digits (parse_coordinate stores tokens in the given order). -/
lemma parse_canonical (ds : List Nat) (hlen : ds.length = 6) (hd : ∀ d ∈ ds, d < 60) :
    parse_coordinate (joinSpace (ds.map toString)) = .ok ds := by
  have hsplit : splitWS (joinSpace (ds.map toString)) = ds.map toString := by
    apply splitWS_joinSpace
    intro t ht
    rcases List.mem_map.mp ht with ⟨d, hdm, rfl⟩
    have hlt := hd d hdm
    exact ⟨tok_ne_nil hlt, tok_no_ws hlt⟩
  unfold parse_coordinate
  have hcontains : (joinSpace (ds.map toString)).data.contains ' ' = true := by
    rw [List.contains_iff_exists_mem_beq]
    refine ⟨' ', ?_, by simp⟩
    match hcc : ds with
    | [] => simp at hlen
    | [a] => simp at hlen
    | a :: b :: l =>
      exact joinSpace_mem_space (toString a) (toString b) (List.map toString l)
  rw [hcontains]
  simp only [Bool.not_true, Bool.false_eq_true, if_false]
  rw [hsplit]
  have hall : (ds.map toString).all
      (fun p => isDigits p && decide (strVal p < 60)) = true := by
    rw [List.all_eq_true]
    intro p hp
    rcases List.mem_map.mp hp with ⟨d, hdm, rfl⟩
    have hlt := hd d hdm
    simp [tok_isDigits hlt, tok_strVal hlt, hlt]
  rw [List.length_map, hlen]
  simp only [hall, Bool.and_true, beq_self_eq_true, if_true]
  congr 1
  rw [List.map_map]
  have : ∀ d ∈ ds, (strVal ∘ toString) d = id d := by
    intro d hdm
    exact tok_strVal (hd d hdm)
  rw [List.map_congr_left this, List.map_id]

/-- Parsing a canonical coordinate string recovers exactly its digits. -/
lemma parse_strCoord (n : Int) :
    parse_coordinate (strCoord_conv n) = .ok (coord_conv n) :=
  parse_canonical (coord_conv n) (coord_conv_length n) (coord_conv_mem_lt n)

/-! ### Claim C4 (corrected): parse stores tokens in the given order -/

/-- Claim C4 counterexample: parse_coordinate does not reverse the token order,
so parse_coordinate "3 0 59 12 0 1" is [3, 0, 59, 12, 0, 1], not the reversed
list [1, 0, 12, 59, 0, 3] stated by the claim; consequently the base-10 value
is 780404403, not 2345059201. -/
theorem c4_parse_order_counterexample :
    parse_coordinate "3 0 59 12 0 1" = .ok [3, 0, 59, 12, 0, 1] ∧
    ¬ ([3, 0, 59, 12, 0, 1] = ([1, 0, 12, 59, 0, 3] : List Nat)) ∧
    baseTenConv [3, 0, 59, 12, 0, 1] = 780404403 ∧
    (780404403 : Nat) ≠ 2345059201 :=
  ⟨by rfl, by decide, by decide, by decide⟩

/-- Claim C4 (amended): parse_coordinate stores the digits in the order the
tokens are written, and the code treats the first token as least significant:
parse_coordinate "3 0 59 12 0 1" = [3, 0, 59, 12, 0, 1], whose baseTenConv is
3 + 0*60 + 59*3600 + 12*216000 + 0*12960000 + 1*777600000 = 780404403, and
formatting the parsed coordinate returns the original string "3 0 59 12 0 1". -/
theorem c4_parse_order :
    parse_coordinate "3 0 59 12 0 1" = .ok [3, 0, 59, 12, 0, 1] ∧
    baseTenConv [3, 0, 59, 12, 0, 1] =
      3 + 0 * 60 + 59 * 3600 + 12 * 216000 + 0 * 12960000 + 1 * 777600000 ∧
    baseTenConv [3, 0, 59, 12, 0, 1] = 780404403 ∧
    (parse_coordinate "3 0 59 12 0 1").map get_coordinates = .ok "3 0 59 12 0 1" :=
  ⟨by rfl, by decide, by decide, by rfl⟩

/-! ### Claim C3 (confirmed): the exact update rule of DefaultPath.step -/

lemma coord_const_eq_spec (c : List Nat) : coord_const c = coordConstSpec c := by
  unfold coord_const coordConstSpec
  rw [show (0xFFFFFFFF : Nat) = 2 ^ 32 - 1 from rfl, Nat.and_pow_two_sub_one_eq_mod]
  congr 1
  ring

lemma land_mask_eq_mod (x : Nat) : x &&& 0xFFFFFFFF = x % 2 ^ 32 := by
  rw [show (0xFFFFFFFF : Nat) = 2 ^ 32 - 1 from rfl, Nat.and_pow_two_sub_one_eq_mod]

/-- Claim C3: every DefaultPath.step call updates the state by exactly the
real-step recurrence coord_dec := (coord_dec^2 - imag^2 + X) mod 60^6 reduced
to a non-negative value, and the imaginary-step recurrence
imag := ((imag XOR C(prev) XOR C(curr)) * 0x9E3779B9 + 1) mod 2^32 with
C the digit-mixing constant mod 2^32 over the base-60 digit lists of the old
and new coord_dec; the call returns the digit string of the new coord_dec and
leaves the key, start list and X seed unchanged. -/
theorem c3_step_update (p : DefaultPath) :
    p.step.2.coord_dec =
      (p.coord_dec * p.coord_dec - (p.imag : Int) * (p.imag : Int) + p.X) % ((60 : Int) ^ 6) ∧
    0 ≤ p.step.2.coord_dec ∧ p.step.2.coord_dec < (60 : Int) ^ 6 ∧
    p.step.2.imag =
      ((p.imag ^^^ coordConstSpec (coord_conv p.coord_dec) ^^^
        coordConstSpec (coord_conv p.step.2.coord_dec)) * 0x9E3779B9 + 1) % 2 ^ 32 ∧
    p.step.1 = strCoord_conv p.step.2.coord_dec ∧
    p.step.2.X = p.X ∧ p.step.2.key = p.key ∧ p.step.2.start_list = p.start_list := by
  have hmod : ((SPACE_SIZE : Nat) : Int) = (60 : Int) ^ 6 := by norm_num [SPACE_SIZE]
  refine ⟨?_, ?_, ?_, ?_, rfl, rfl, rfl, rfl⟩
  · show real_step p.X p.coord_dec p.imag = _
    unfold real_step
    rw [hmod]
  · show (0 : Int) ≤ real_step p.X p.coord_dec p.imag
    unfold real_step
    exact Int.emod_nonneg _ (by norm_num [SPACE_SIZE])
  · show real_step p.X p.coord_dec p.imag < (60 : Int) ^ 6
    unfold real_step
    rw [← hmod]
    exact Int.emod_lt_of_pos _ (by norm_num [SPACE_SIZE])
  · show imag_step (coord_conv p.coord_dec) (coord_conv (real_step p.X p.coord_dec p.imag))
        p.imag = _
    unfold imag_step
    rw [coord_const_eq_spec, coord_const_eq_spec, land_mask_eq_mod]
    rfl

/-! ### Claim C2 (confirmed): determinism of the emitted sequence -/

/-- The (coordinate string, imag) pair emitted after k calls to step: at k = 0
the pair exposed by the seeded walker, afterwards the return of the k-th step
call together with the imag property after it. -/
def kthEmission (p : DefaultPath) : Nat → String × Nat
  | 0 => (strCoord_conv p.coord_dec, p.imag)
  | k + 1 => ((walkState p k).step.1, (walkState p k).step.2.imag)

/-- The emitted pair as a pure function of (start, key, k) alone. -/
def emittedPure (blake2b8 : String → Nat) (start_list : List Nat) (key : String) (k : Nat) :
    String × Nat :=
  (strCoord_conv (walkState (DefaultPath.init blake2b8 start_list key) k).coord_dec,
   (walkState (DefaultPath.init blake2b8 start_list key) k).imag)

lemma walkState_succ_back (p : DefaultPath) : ∀ k, walkState p (k + 1) = stateStep (walkState p k) := by
  intro k
  induction k generalizing p with
  | zero => rfl
  | succ k ih =>
    show walkState (stateStep p) (k + 1) = _
    rw [ih (stateStep p)]
    rfl

lemma step_fst (p : DefaultPath) : p.step.1 = strCoord_conv p.step.2.coord_dec := rfl

/-- Claim C2: for every start coordinate, key and k, the pair emitted after k
step calls is a pure function of (start, key, k): two independently
constructed walkers over the same hash function with the same (start, key)
emit identical pairs at every k, equal to the closed-form emittedPure, with no
dependence on any other state. -/
theorem c2_deterministic (blake2b8 : String → Nat) (start_list : List Nat) (key : String)
    (k : Nat) (w1 w2 : DefaultPath)
    (h1 : w1 = DefaultPath.init blake2b8 start_list key)
    (h2 : w2 = DefaultPath.init blake2b8 start_list key) :
    kthEmission w1 k = kthEmission w2 k ∧
    kthEmission w1 k = emittedPure blake2b8 start_list key k := by
  subst h1; subst h2
  refine ⟨rfl, ?_⟩
  match k with
  | 0 => rfl
  | k + 1 =>
    show ((walkState _ k).step.1, (walkState _ k).step.2.imag) = _
    rw [step_fst]
    unfold emittedPure
    rw [walkState_succ_back]
    rfl

/-- Claim C2 witness: the theorem applied to two freshly constructed walkers at
a concrete (hash, start, key, k). -/
theorem c2_deterministic_witness :
    kthEmission (DefaultPath.init (fun _ => 0) [0, 0, 0, 0, 0, 0] "a") 1 =
      kthEmission (DefaultPath.init (fun _ => 0) [0, 0, 0, 0, 0, 0] "a") 1 ∧
    kthEmission (DefaultPath.init (fun _ => 0) [0, 0, 0, 0, 0, 0] "a") 1 =
      emittedPure (fun _ => 0) [0, 0, 0, 0, 0, 0] "a" 1 :=
  c2_deterministic (fun _ => 0) [0, 0, 0, 0, 0, 0] "a" 1 _ _ rfl rfl

/-! ### Claim C10 (code_bug): single_step always raises AttributeError -/

/-- Claim C10: single_step never returns normally, contradicting its own
docstring: class Coordinate has no method baseSixtyConv, so after both parses
succeed the call on navigation_hub.py line 244 raises AttributeError instead
of returning the DefaultPath-equivalent (next coordinate, next imag) pair.
Evaluated here at the failing input coord "0 0 0 0 0 0", imag 0, key "k",
start "0 0 0 0 0 0", for every hash function. -/
theorem c10_single_step_attribute_error : ∀ blake2b8 : String → Nat,
    single_step blake2b8 "0 0 0 0 0 0" 0 "k" "0 0 0 0 0 0" =
      .error "AttributeError: Coordinate object has no attribute baseSixtyConv" := by
  intro blake2b8
  rfl

/-! ### Claim C6 (corrected): coordinate round-trips -/

/-- Claim C6 counterexample: "00 00 00 00 00 00" is six space-separated
decimals each in [0, 59], but format(parse(s)) drops the leading zeros and
returns "0 0 0 0 0 0", not s. -/
theorem c6_roundtrip_counterexample :
    (parse_coordinate "00 00 00 00 00 00").map get_coordinates = .ok "0 0 0 0 0 0" ∧
    "0 0 0 0 0 0" ≠ "00 00 00 00 00 00" :=
  ⟨by rfl, by decide⟩

/-- Claim C6 (amended): for every n in [0, 60^6), baseTenConv(coord_conv(n)) = n;
and formatting the parsed coordinate returns the string unchanged for every
coordinate string whose six tokens are the canonical (no leading zero) decimal
representations of numbers in [0, 59], joined by single spaces. -/
theorem c6_roundtrip :
    (∀ n : Nat, n < SPACE_SIZE → baseTenConv (coord_conv (n : Int)) = n) ∧
    (∀ ds : List Nat, ds.length = 6 → (∀ d ∈ ds, d < 60) →
      parse_coordinate (joinSpace (ds.map toString)) = .ok ds ∧
      (parse_coordinate (joinSpace (ds.map toString))).map get_coordinates =
        .ok (joinSpace (ds.map toString))) := by
  constructor
  · intro n hn
    rw [baseTenConv_coord_conv]
    rw [Int.emod_eq_of_lt (by positivity) (by exact_mod_cast hn)]
    exact Int.toNat_natCast n
  · intro ds hlen hd
    have hp := parse_canonical ds hlen hd
    exact ⟨hp, by rw [hp]; rfl⟩

/-- Claim C6 witness: the round-trips evaluated at n = 123456 and at the
digit list [1, 2, 3, 4, 5, 0]. -/
theorem c6_roundtrip_witness :
    baseTenConv (coord_conv ((123456 : Nat) : Int)) = 123456 ∧
    parse_coordinate (joinSpace (([1, 2, 3, 4, 5, 0] : List Nat).map toString)) =
      .ok [1, 2, 3, 4, 5, 0] :=
  ⟨c6_roundtrip.1 123456 (by norm_num [SPACE_SIZE]),
   (c6_roundtrip.2 [1, 2, 3, 4, 5, 0] (by decide) (by decide)).1⟩

/-! ### Claim C9 (confirmed): increment/decrement keep digits in range and
track universe overflow exactly -/

lemma updateCoordinates_one : ∀ l : List Int, (∀ d ∈ l, 0 ≤ d ∧ d ≤ 59) →
    (∀ d ∈ (updateCoordinates 1 l).1, 0 ≤ d ∧ d ≤ 59) ∧
    ((updateCoordinates 1 l).2 = if l ≠ [] ∧ (∀ d ∈ l, d = 59) then 1 else 0) := by
  intro l
  induction l with
  | nil =>
    intro _
    refine ⟨?_, by simp [updateCoordinates]⟩
    intro d hd
    simp [updateCoordinates] at hd
  | cons d rest ih =>
    intro h
    have hdr := h d (List.mem_cons_self d rest)
    by_cases h59 : d = 59
    · subst h59
      match rest with
      | [] =>
        refine ⟨?_, by norm_num [updateCoordinates]⟩
        intro x hx
        norm_num [updateCoordinates] at hx
        omega
      | e :: rest2 =>
        obtain ⟨ih1, ih2⟩ := ih (fun x hx => h x (List.mem_cons_of_mem _ hx))
        have hunf : updateCoordinates 1 (59 :: e :: rest2) =
            (0 :: (updateCoordinates 1 (e :: rest2)).1,
              (updateCoordinates 1 (e :: rest2)).2) := by
          norm_num [updateCoordinates]
        rw [hunf]
        constructor
        · intro x hx
          rcases List.mem_cons.mp hx with rfl | hx
          · omega
          · exact ih1 x hx
        · rw [ih2]
          have hiff : (e :: rest2 ≠ [] ∧ ∀ x ∈ e :: rest2, x = 59) ↔
              (59 :: e :: rest2 ≠ [] ∧ ∀ x ∈ 59 :: e :: rest2, x = 59) := by
            constructor
            · rintro ⟨-, hall⟩
              refine ⟨by simp, ?_⟩
              intro x hx
              rcases List.mem_cons.mp hx with rfl | hx
              · rfl
              · exact hall x hx
            · rintro ⟨-, hall⟩
              exact ⟨by simp, fun x hx => hall x (List.mem_cons_of_mem _ hx)⟩
          simp only [hiff]
    · have hcond : ¬((1 : Int) > 0 ∧ d + 1 = 60) := by
        rintro ⟨-, hx⟩
        exact h59 (by omega)
      have hcond2 : ¬((1 : Int) < 0 ∧ d + 1 = -1) := by
        rintro ⟨hlt, -⟩
        norm_num at hlt
      have hunf : updateCoordinates 1 (d :: rest) = ((d + 1) :: rest, 0) := by
        unfold updateCoordinates
        rw [if_neg hcond, if_neg hcond2]
      rw [hunf]
      refine ⟨?_, ?_⟩
      · intro x hx
        rcases List.mem_cons.mp hx with rfl | hx
        · omega
        · exact h x (List.mem_cons_of_mem _ hx)
      · rw [if_neg]
        rintro ⟨-, hall⟩
        exact h59 (hall d (List.mem_cons_self d rest))

lemma updateCoordinates_neg_one : ∀ l : List Int, (∀ d ∈ l, 0 ≤ d ∧ d ≤ 59) →
    (∀ d ∈ (updateCoordinates (-1) l).1, 0 ≤ d ∧ d ≤ 59) ∧
    ((updateCoordinates (-1) l).2 = if l ≠ [] ∧ (∀ d ∈ l, d = 0) then -1 else 0) := by
  intro l
  induction l with
  | nil =>
    intro _
    refine ⟨?_, by simp [updateCoordinates]⟩
    intro d hd
    simp [updateCoordinates] at hd
  | cons d rest ih =>
    intro h
    have hdr := h d (List.mem_cons_self d rest)
    by_cases h0 : d = 0
    · subst h0
      match rest with
      | [] =>
        refine ⟨?_, by norm_num [updateCoordinates]⟩
        intro x hx
        norm_num [updateCoordinates] at hx
        omega
      | e :: rest2 =>
        obtain ⟨ih1, ih2⟩ := ih (fun x hx => h x (List.mem_cons_of_mem _ hx))
        have hunf : updateCoordinates (-1) (0 :: e :: rest2) =
            (59 :: (updateCoordinates (-1) (e :: rest2)).1,
              (updateCoordinates (-1) (e :: rest2)).2) := by
          norm_num [updateCoordinates]
        rw [hunf]
        constructor
        · intro x hx
          rcases List.mem_cons.mp hx with rfl | hx
          · omega
          · exact ih1 x hx
        · rw [ih2]
          have hiff : (e :: rest2 ≠ [] ∧ ∀ x ∈ e :: rest2, x = 0) ↔
              (0 :: e :: rest2 ≠ [] ∧ ∀ x ∈ 0 :: e :: rest2, x = 0) := by
            constructor
            · rintro ⟨-, hall⟩
              refine ⟨by simp, ?_⟩
              intro x hx
              rcases List.mem_cons.mp hx with rfl | hx
              · rfl
              · exact hall x hx
            · rintro ⟨-, hall⟩
              exact ⟨by simp, fun x hx => hall x (List.mem_cons_of_mem _ hx)⟩
          simp only [hiff]
    · have hcond : ¬((-1 : Int) > 0 ∧ d + -1 = 60) := by
        rintro ⟨hlt, -⟩
        norm_num at hlt
      have hcond2 : ¬((-1 : Int) < 0 ∧ d + -1 = -1) := by
        rintro ⟨-, hx⟩
        exact h0 (by omega)
      have hunf : updateCoordinates (-1) (d :: rest) = ((d + -1) :: rest, 0) := by
        unfold updateCoordinates
        rw [if_neg hcond, if_neg hcond2]
      rw [hunf]
      refine ⟨?_, ?_⟩
      · intro x hx
        rcases List.mem_cons.mp hx with rfl | hx
        · omega
        · exact h x (List.mem_cons_of_mem _ hx)
      · rw [if_neg]
        rintro ⟨-, hall⟩
        exact h0 (hall d (List.mem_cons_self d rest))

/-- Claim C9: for a Coordinate whose six digits are all in [0, 59], increment
and decrement keep every digit in [0, 59]; increment raises universes by
exactly 1 when all six digits were 59 and leaves universes unchanged
otherwise; decrement lowers universes by exactly 1 when all six digits were 0
and leaves universes unchanged otherwise. -/
theorem c9_ripple_invariants (c : Coordinate) (hlen : c.coordinates.length = 6)
    (hdig : ∀ d ∈ c.coordinates, 0 ≤ d ∧ d ≤ 59) :
    (∀ d ∈ c.increment.coordinates, 0 ≤ d ∧ d ≤ 59) ∧
    (∀ d ∈ c.decrement.coordinates, 0 ≤ d ∧ d ≤ 59) ∧
    ((∀ d ∈ c.coordinates, d = 59) → c.increment.universes = c.universes + 1) ∧
    (¬ (∀ d ∈ c.coordinates, d = 59) → c.increment.universes = c.universes) ∧
    ((∀ d ∈ c.coordinates, d = 0) → c.decrement.universes = c.universes - 1) ∧
    (¬ (∀ d ∈ c.coordinates, d = 0) → c.decrement.universes = c.universes) := by
  have hne : c.coordinates ≠ [] := by
    intro hc
    rw [hc] at hlen
    simp at hlen
  obtain ⟨hi1, hi2⟩ := updateCoordinates_one c.coordinates hdig
  obtain ⟨hd1, hd2⟩ := updateCoordinates_neg_one c.coordinates hdig
  refine ⟨hi1, hd1, ?_, ?_, ?_, ?_⟩
  · intro hall
    show c.universes + (updateCoordinates 1 c.coordinates).2 = c.universes + 1
    rw [hi2, if_pos ⟨hne, hall⟩]
  · intro hnall
    show c.universes + (updateCoordinates 1 c.coordinates).2 = c.universes
    rw [hi2, if_neg (fun hc => hnall hc.2)]
    ring
  · intro hall
    show c.universes + (updateCoordinates (-1) c.coordinates).2 = c.universes - 1
    rw [hd2, if_pos ⟨hne, hall⟩]
    ring
  · intro hnall
    show c.universes + (updateCoordinates (-1) c.coordinates).2 = c.universes
    rw [hd2, if_neg (fun hc => hnall hc.2)]
    ring

/-- Claim C9 witness: the theorem applied at the all-59 coordinate. -/
theorem c9_ripple_invariants_witness :
    (∀ d ∈ (Coordinate.increment ⟨[59, 59, 59, 59, 59, 59], 0, 0⟩).coordinates,
      0 ≤ d ∧ d ≤ 59) ∧
    (∀ d ∈ (Coordinate.decrement ⟨[59, 59, 59, 59, 59, 59], 0, 0⟩).coordinates,
      0 ≤ d ∧ d ≤ 59) ∧
    ((∀ d ∈ ([59, 59, 59, 59, 59, 59] : List Int), d = 59) →
      (Coordinate.increment ⟨[59, 59, 59, 59, 59, 59], 0, 0⟩).universes = 0 + 1) ∧
    (¬ (∀ d ∈ ([59, 59, 59, 59, 59, 59] : List Int), d = 59) →
      (Coordinate.increment ⟨[59, 59, 59, 59, 59, 59], 0, 0⟩).universes = 0) ∧
    ((∀ d ∈ ([59, 59, 59, 59, 59, 59] : List Int), d = 0) →
      (Coordinate.decrement ⟨[59, 59, 59, 59, 59, 59], 0, 0⟩).universes = 0 - 1) ∧
    (¬ (∀ d ∈ ([59, 59, 59, 59, 59, 59] : List Int), d = 0) →
      (Coordinate.decrement ⟨[59, 59, 59, 59, 59, 59], 0, 0⟩).universes = 0) :=
  c9_ripple_invariants ⟨[59, 59, 59, 59, 59, 59], 0, 0⟩ (by decide) (by decide)

/-! ### Claim C8 (confirmed): load_coordinate_data and coordinate_exists -/

lemma dmPaths_of_six {c : String} (h6 : (splitWS c).length = 6) :
    dmPaths c = .ok (jsonPath (splitWS c), joinSpace (splitWS c)) := by
  unfold dmPaths
  simp [h6]

/-- Claim C8: for every coordinate string of six parts, load_coordinate_data
returns the list stored under the full coordinate key in the bucket file, and
returns the empty list whenever the bucket file is absent, the file is
corrupt (its JSON fails to parse), or the key is missing from the parsed
mapping; coordinate_exists is true exactly when that list is non-empty. -/
theorem c8_load_error_handling (fs : FS) (c : String) (h6 : (splitWS c).length = 6) :
    load_coordinate_data fs c =
      .ok (((loadJson fs (jsonPath (splitWS c))).lookup (joinSpace (splitWS c))).getD []) ∧
    (fs.lookup (jsonPath (splitWS c)) = none → load_coordinate_data fs c = .ok []) ∧
    (fs.lookup (jsonPath (splitWS c)) = some .corrupt → load_coordinate_data fs c = .ok []) ∧
    (∀ entries, fs.lookup (jsonPath (splitWS c)) = some (.parsed entries) →
      (entries.lookup (joinSpace (splitWS c)) = none → load_coordinate_data fs c = .ok []) ∧
      (∀ bl, entries.lookup (joinSpace (splitWS c)) = some bl →
        load_coordinate_data fs c = .ok bl)) ∧
    (∀ blocks, load_coordinate_data fs c = .ok blocks →
      coordinate_exists fs c = .ok (!blocks.isEmpty)) := by
  have hload : load_coordinate_data fs c =
      .ok (((loadJson fs (jsonPath (splitWS c))).lookup (joinSpace (splitWS c))).getD []) := by
    unfold load_coordinate_data
    rw [dmPaths_of_six h6]
    rfl
  refine ⟨hload, ?_, ?_, ?_, ?_⟩
  · intro habs
    rw [hload]
    unfold loadJson
    rw [habs]
    rfl
  · intro hcor
    rw [hload]
    unfold loadJson
    rw [hcor]
    rfl
  · intro entries hent
    have hj : loadJson fs (jsonPath (splitWS c)) = entries := by
      unfold loadJson
      rw [hent]
    constructor
    · intro hmiss
      rw [hload, hj, hmiss]
      rfl
    · intro bl hbl
      rw [hload, hj, hbl]
      rfl
  · intro blocks hblocks
    unfold coordinate_exists
    rw [hblocks]
    rfl

/-- Claim C8 witness: the theorem applied to a concrete store and coordinate. -/
theorem c8_load_error_handling_witness :
    load_coordinate_data [] "0 0 0 0 0 0" =
      .ok (((loadJson [] (jsonPath (splitWS "0 0 0 0 0 0"))).lookup
        (joinSpace (splitWS "0 0 0 0 0 0"))).getD []) ∧
    (List.lookup (jsonPath (splitWS "0 0 0 0 0 0")) ([] : FS) = none →
      load_coordinate_data [] "0 0 0 0 0 0" = .ok []) :=
  ⟨(c8_load_error_handling [] "0 0 0 0 0 0" (by decide)).1,
   (c8_load_error_handling [] "0 0 0 0 0 0" (by decide)).2.1⟩

/-! ### Claim C7 (confirmed): create_coordinate_block preserves the bucket invariant -/

/-- The bucket persisted for a coordinate: the block list the store holds under
the full coordinate key. -/
def bucketOf (fs : FS) (c : String) : List BlockData :=
  ((loadJson fs (jsonPath (splitWS c))).lookup (joinSpace (splitWS c))).getD []

lemma lookup_upsert_self {β : Type} (k : String) (v : β) :
    ∀ l : List (String × β), (upsert k v l).lookup k = some v := by
  intro l
  induction l with
  | nil => simp [upsert, List.lookup]
  | cons p rest ih =>
    obtain ⟨a, b⟩ := p
    by_cases hk : a = k
    · simp [upsert, hk, List.lookup]
    · simp only [upsert, if_neg hk]
      rw [List.lookup_cons,
        show (k == a) = false from beq_eq_false_iff_ne.mpr (fun hc => hk hc.symm)]
      exact ih

lemma lookup_upsert_ne {β : Type} (k k1 : String) (v : β) (hne : k1 ≠ k) :
    ∀ l : List (String × β), (upsert k v l).lookup k1 = l.lookup k1 := by
  intro l
  induction l with
  | nil => simp [upsert, List.lookup, beq_eq_false_iff_ne.mpr hne]
  | cons p rest ih =>
    obtain ⟨a, b⟩ := p
    by_cases hk : a = k
    · subst hk
      have hup : upsert a v ((a, b) :: rest) = (a, v) :: rest := by simp [upsert]
      rw [hup, List.lookup_cons, List.lookup_cons,
        show (k1 == a) = false from beq_eq_false_iff_ne.mpr hne]
    · simp only [upsert, if_neg hk]
      rw [List.lookup_cons, List.lookup_cons]
      match hb : k1 == a with
      | true => rfl
      | false => exact ih

lemma foldl_max_init_le (l : List Int) : ∀ init : Int, init ≤ l.foldl max init := by
  induction l with
  | nil => intro init; simp
  | cons y ys ih =>
    intro init
    calc init ≤ max init y := le_max_left _ _
    _ ≤ ys.foldl max (max init y) := ih _

lemma mem_le_foldl_max (l : List Int) : ∀ (init x : Int), x ∈ l → x ≤ l.foldl max init := by
  induction l with
  | nil => intro init x hx; simp at hx
  | cons y ys ih =>
    intro init x hx
    rcases List.mem_cons.mp hx with rfl | hx
    · calc x ≤ max init x := le_max_right _ _
      _ ≤ ys.foldl max (max init x) := foldl_max_init_le ys _
    · exact ih _ x hx

lemma mem_le_listMax {x : Int} {l : List Int} (hx : x ∈ l) : x ≤ listMax l := by
  match l with
  | [] => simp at hx
  | y :: ys =>
    rcases List.mem_cons.mp hx with rfl | hxx
    · exact foldl_max_init_le ys x
    · exact mem_le_foldl_max ys y x hxx

instance : IsTotal BlockData leUniv := ⟨fun a b => le_total a.univ b.univ⟩

instance : IsTrans BlockData leUniv := ⟨fun _ _ _ hab hbc => le_trans hab hbc⟩

/-- The universe actually inserted by create_coordinate_block: reassigned to
max(existing)+1 exactly on collision. -/
def insertedBlock (old : List BlockData) (block : BlockData) : BlockData :=
  if block.univ ∈ old.map BlockData.univ then
    { block with univ := if (old.map BlockData.univ).isEmpty then 0
                          else listMax (old.map BlockData.univ) + 1 }
  else block

lemma create_eq {fs : FS} {c : String} {block : BlockData}
    (h6 : (splitWS c).length = 6) :
    create_coordinate_block fs c block =
      .ok (upsert (jsonPath (splitWS c))
        (.parsed (upsert (joinSpace (splitWS c))
          ((bucketOf fs c ++ [insertedBlock (bucketOf fs c) block]).insertionSort leUniv)
          (loadJson fs (jsonPath (splitWS c)))))
        fs) := by
  unfold create_coordinate_block
  rw [dmPaths_of_six h6]
  rfl

lemma bucketOf_after_create {fs : FS} {c : String} {block : BlockData} {fs1 : FS}
    (h6 : (splitWS c).length = 6)
    (hok : create_coordinate_block fs c block = .ok fs1) :
    bucketOf fs1 c =
      (bucketOf fs c ++ [insertedBlock (bucketOf fs c) block]).insertionSort leUniv := by
  rw [create_eq h6] at hok
  cases hok
  unfold bucketOf loadJson
  rw [lookup_upsert_self, lookup_upsert_self]
  rfl

lemma insertedBlock_univ_fresh {old : List BlockData} {block : BlockData}
    (hdist : old.Pairwise (fun a b => a.univ ≠ b.univ)) :
    ∀ a ∈ old, a.univ ≠ (insertedBlock old block).univ := by
  intro a ha
  unfold insertedBlock
  by_cases hmem : block.univ ∈ old.map BlockData.univ
  · rw [if_pos hmem]
    have hne : (old.map BlockData.univ).isEmpty = false := by
      rw [List.isEmpty_eq_false]
      intro hc
      rw [hc] at hmem
      simp at hmem
    simp only [hne, Bool.false_eq_true, if_false]
    have hle : a.univ ≤ listMax (old.map BlockData.univ) :=
      mem_le_listMax (List.mem_map_of_mem BlockData.univ ha)
    omega
  · rw [if_neg hmem]
    intro hc
    exact hmem (hc ▸ List.mem_map_of_mem BlockData.univ ha)

/-- Claim C7: a write into a bucket whose universes are pairwise distinct
reassigns the incoming block's universe to max(existing)+1 exactly when it
collides with an existing one, and the persisted bucket is the ascending-by-
universe ordering of the old blocks plus the inserted block, with all
universes again pairwise distinct. -/
theorem c7_bucket_invariant (fs : FS) (c : String) (block : BlockData)
    (h6 : (splitWS c).length = 6)
    (hdist : (bucketOf fs c).Pairwise (fun a b => a.univ ≠ b.univ)) :
    ∃ fs1, create_coordinate_block fs c block = .ok fs1 ∧
      (bucketOf fs1 c).Perm (bucketOf fs c ++ [insertedBlock (bucketOf fs c) block]) ∧
      (block.univ ∈ (bucketOf fs c).map BlockData.univ →
        (insertedBlock (bucketOf fs c) block).univ =
          listMax ((bucketOf fs c).map BlockData.univ) + 1) ∧
      (¬ block.univ ∈ (bucketOf fs c).map BlockData.univ →
        insertedBlock (bucketOf fs c) block = block) ∧
      (bucketOf fs1 c).Sorted leUniv ∧
      (bucketOf fs1 c).Pairwise (fun a b => a.univ ≠ b.univ) := by
  refine ⟨_, create_eq h6, ?_, ?_, ?_, ?_, ?_⟩
  · rw [bucketOf_after_create h6 (create_eq h6)]
    exact List.perm_insertionSort _ _
  · intro hmem
    unfold insertedBlock
    rw [if_pos hmem]
    have hne : ((bucketOf fs c).map BlockData.univ).isEmpty = false := by
      rw [List.isEmpty_eq_false]
      intro hc
      rw [hc] at hmem
      simp at hmem
    simp [hne]
  · intro hmem
    unfold insertedBlock
    rw [if_neg hmem]
  · rw [bucketOf_after_create h6 (create_eq h6)]
    exact List.sorted_insertionSort _ _
  · rw [bucketOf_after_create h6 (create_eq h6)]
    rw [List.Perm.pairwise_iff (fun hab hc => hab hc.symm)
      (List.perm_insertionSort leUniv (bucketOf fs c ++ [insertedBlock (bucketOf fs c) block]))]
    rw [List.pairwise_append]
    refine ⟨hdist, List.pairwise_singleton _ _, ?_⟩
    intro a ha b hb
    rw [List.mem_singleton.mp hb]
    exact insertedBlock_univ_fresh hdist a ha

/-- Claim C7 witness: the theorem applied to a write into the empty bucket. -/
theorem c7_bucket_invariant_witness :
    ∃ fs1, create_coordinate_block [] "0 0 0 0 0 0" ⟨"u", "a", 5, []⟩ = .ok fs1 ∧
      (bucketOf fs1 "0 0 0 0 0 0").Perm
        (bucketOf [] "0 0 0 0 0 0" ++
          [insertedBlock (bucketOf [] "0 0 0 0 0 0") ⟨"u", "a", 5, []⟩]) ∧
      ((⟨"u", "a", 5, []⟩ : BlockData).univ ∈
          (bucketOf [] "0 0 0 0 0 0").map BlockData.univ →
        (insertedBlock (bucketOf [] "0 0 0 0 0 0") ⟨"u", "a", 5, []⟩).univ =
          listMax ((bucketOf [] "0 0 0 0 0 0").map BlockData.univ) + 1) ∧
      (¬ (⟨"u", "a", 5, []⟩ : BlockData).univ ∈
          (bucketOf [] "0 0 0 0 0 0").map BlockData.univ →
        insertedBlock (bucketOf [] "0 0 0 0 0 0") ⟨"u", "a", 5, []⟩ = ⟨"u", "a", 5, []⟩) ∧
      (bucketOf fs1 "0 0 0 0 0 0").Sorted leUniv ∧
      (bucketOf fs1 "0 0 0 0 0 0").Pairwise (fun a b => a.univ ≠ b.univ) :=
  c7_bucket_invariant [] "0 0 0 0 0 0" ⟨"u", "a", 5, []⟩ (by decide) (by constructor)

/-! ### Claim C5 (corrected): the walker key is the folder name / user key,
not the id field of the bundle JSON -/

lemma ebind_ok {α β : Type} (a : α) (f : α → Except String β) :
    (Except.ok a >>= f : Except String β) = f a := rfl

lemma storeLoop_ok (atts : List String) :
    ∀ (pairs : List (String × String)) (fs : FS) (p : DefaultPath) (m : Int),
    ∃ fs1 m1 p1, storeLoop atts fs p (strCoord_conv m) pairs = .ok (fs1, strCoord_conv m1, p1) := by
  intro pairs
  induction pairs with
  | nil =>
    intro fs p m
    exact ⟨fs, m, p, rfl⟩
  | cons pr rest ih =>
    intro fs p m
    obtain ⟨u, a⟩ := pr
    have h6 : (splitWS (strCoord_conv m)).length = 6 := splitWS_strCoord_length m
    have hc := @create_eq fs (strCoord_conv m) ⟨u, a, (p.imag : Int), usedAtts atts u a⟩ h6
    obtain ⟨fs1, m1, p1, hrest⟩ := ih
      (upsert (jsonPath (splitWS (strCoord_conv m)))
        (.parsed (upsert (joinSpace (splitWS (strCoord_conv m)))
          ((bucketOf fs (strCoord_conv m) ++
            [insertedBlock (bucketOf fs (strCoord_conv m))
              ⟨u, a, (p.imag : Int), usedAtts atts u a⟩]).insertionSort leUniv)
          (loadJson fs (jsonPath (splitWS (strCoord_conv m))))))
        fs)
      p.step.2 p.step.2.coord_dec
    refine ⟨fs1, m1, p1, ?_⟩
    show (create_coordinate_block fs (strCoord_conv m)
        ⟨u, a, (p.imag : Int), usedAtts atts u a⟩ >>= fun fs1 =>
      storeLoop atts fs1 p.step.2 p.step.1 rest) = _
    rw [hc, ebind_ok]
    rw [step_fst p]
    exact hrest

lemma storeAllGo_ok (blake2b8 : String → Nat) :
    ∀ (l : List (String × ConvoBundle)) (fs : FS) (cur : String),
    (∃ ds, parse_coordinate cur = .ok ds) →
    ∃ fs1 idx keys, storeAllGo blake2b8 fs cur l = .ok (fs1, idx, keys) ∧
      keys = l.map Prod.fst := by
  intro l
  induction l with
  | nil =>
    intro fs cur _
    exact ⟨fs, [], [], rfl, rfl⟩
  | cons d rest ih =>
    intro fs cur hcur
    obtain ⟨name, bundle⟩ := d
    obtain ⟨ds, hds⟩ := hcur
    obtain ⟨fs1, m1, p1, hloop⟩ :=
      storeLoop_ok bundle.attachments (pairUp bundle.messages) fs
        (DefaultPath.init blake2b8 ds name) (DefaultPath.init blake2b8 ds name).coord_dec
    obtain ⟨fs2, idx, keys, hgo, hkeys⟩ := ih fs1 (strCoord_conv m1)
      ⟨coord_conv m1, parse_strCoord m1⟩
    refine ⟨fs2, (name, cur) :: idx, name :: keys, ?_, by rw [hkeys]; rfl⟩
    show (parse_coordinate cur >>= fun sl =>
      (storeLoop bundle.attachments fs (DefaultPath.init blake2b8 sl name)
          (strCoord_conv (DefaultPath.init blake2b8 sl name).coord_dec)
          (pairUp bundle.messages) >>= fun r =>
        (storeAllGo blake2b8 r.1 r.2.1 rest >>= fun rec1 =>
          .ok (rec1.1, (name, cur) :: rec1.2.1, name :: rec1.2.2)))) = _
    rw [hds, ebind_ok, hloop, ebind_ok, hgo, ebind_ok]

/-- Claim C5 counterexample: a bundle whose JSON id field is "xyz" imported by
the recurse-store mode from directory "t--abc" is placed along the walk keyed
by the directory name "t--abc", not by the id field. -/
theorem c5_key_counterexample :
    (store_all_conversations (fun _ => 0) [("t--abc", ⟨"T", "xyz", ["hi"], []⟩)] []).map
      (fun r => r.2.2) = .ok ["t--abc"] ∧
    ("t--abc" : String) ≠ "xyz" ∧
    (⟨"T", "xyz", ["hi"], []⟩ : ConvoBundle).id = "xyz" :=
  ⟨by rfl, by decide, rfl⟩

/-- Claim C5 (amended): for every imported bundle, the key passed to the walker
is the conversation's directory name (recurse-store mode processes directories
in sorted order and seeds each walk with the directory name); in
single-conversation mode the key is the user-entered key parameter, which is
likewise independent of the id field of the bundle JSON. -/
theorem c5_walker_keys (blake2b8 : String → Nat) (dirs : List (String × ConvoBundle))
    (fs : FS) :
    ∃ fs1 idx keys, store_all_conversations blake2b8 dirs fs = .ok (fs1, idx, keys) ∧
      keys = (sortDirs dirs).map Prod.fst := by
  exact storeAllGo_ok blake2b8 (sortDirs dirs) fs "00 00 00 00 00 00"
    ⟨[0, 0, 0, 0, 0, 0], by rfl⟩

/-! ### Claim C1: store/restore inverse

Infrastructure: the list of (coordinate, block) writes performed by the store
loop, the bucket contents they induce, and the restore loop reading them back. -/

/-- The (coordinate, block) writes the store loop performs for the given pairs
from walker state p, in write order. -/
def writesFrom (atts : List String) (p : DefaultPath) :
    List (String × String) → List (String × BlockData)
  | [] => []
  | (u, a) :: rest =>
    (strCoord_conv p.coord_dec, ⟨u, a, (p.imag : Int), usedAtts atts u a⟩) ::
      writesFrom atts (stateStep p) rest

/-- The blocks written at coordinate c, in write order. -/
def writesAt (ws : List (String × BlockData)) (c : String) : List BlockData :=
  (ws.filter (fun w => w.1 == c)).map Prod.snd

/-- Universes are distinct among writes that share a coordinate. -/
def univsDistinct (ws : List (String × BlockData)) : Prop :=
  ws.Pairwise (fun w1 w2 => w1.1 = w2.1 → w1.2.univ ≠ w2.2.univ)

lemma mem_writesAt {ws : List (String × BlockData)} {c : String} {b : BlockData} :
    b ∈ writesAt ws c ↔ ∃ w, w ∈ ws ∧ w.1 = c ∧ w.2 = b := by
  unfold writesAt
  simp only [List.mem_map, List.mem_filter, beq_iff_eq]
  constructor
  · rintro ⟨w, ⟨hw, hc⟩, hb⟩
    exact ⟨w, hw, hc, hb⟩
  · rintro ⟨w, hw, hc, hb⟩
    exact ⟨w, ⟨hw, hc⟩, hb⟩

lemma writesAt_append (ws1 ws2 : List (String × BlockData)) (c : String) :
    writesAt (ws1 ++ ws2) c = writesAt ws1 c ++ writesAt ws2 c := by
  unfold writesAt
  rw [List.filter_append, List.map_append]

lemma writesAt_single {w : String × BlockData} {c : String} :
    writesAt [w] c = if w.1 = c then [w.2] else [] := by
  by_cases h : w.1 = c <;> simp [writesAt, h]

lemma writesAt_pairwise {ws : List (String × BlockData)} {c : String}
    (h : univsDistinct ws) :
    (writesAt ws c).Pairwise (fun x y : BlockData => x.univ ≠ y.univ) := by
  unfold writesAt
  rw [List.pairwise_map]
  apply List.Pairwise.imp_of_mem ?_ (h.filter _)
  intro w1 w2 h1 h2 hrel
  have hc1 : w1.1 = c := by
    have := (List.mem_filter.mp h1).2
    simpa using this
  have hc2 : w2.1 = c := by
    have := (List.mem_filter.mp h2).2
    simpa using this
  exact hrel (hc1.trans hc2.symm)

lemma writesAt_unique {ws : List (String × BlockData)} {c : String}
    (hd : univsDistinct ws) {b1 b2 : BlockData}
    (h1 : b1 ∈ writesAt ws c) (h2 : b2 ∈ writesAt ws c) (huniv : b1.univ = b2.univ) :
    b1 = b2 := by
  induction ws with
  | nil => simp [writesAt] at h1
  | cons w ws ih =>
    have hd2 : univsDistinct ws := (List.pairwise_cons.mp hd).2
    have hdw := (List.pairwise_cons.mp hd).1
    have hsplit : writesAt (w :: ws) c = writesAt [w] c ++ writesAt ws c :=
      writesAt_append [w] ws c
    rw [hsplit] at h1 h2
    rw [writesAt_single] at h1 h2
    by_cases hc : w.1 = c
    · rw [if_pos hc] at h1 h2
      rcases List.mem_append.mp h1 with ha1 | ha1 <;>
        rcases List.mem_append.mp h2 with ha2 | ha2
      · rw [List.mem_singleton.mp ha1, List.mem_singleton.mp ha2]
      · rw [List.mem_singleton.mp ha1] at huniv ⊢
        obtain ⟨w2, hw2, hc2, hb2⟩ := mem_writesAt.mp ha2
        exact absurd (hb2 ▸ huniv) (hdw w2 hw2 (hc.trans hc2.symm))
      · rw [List.mem_singleton.mp ha2] at huniv ⊢
        obtain ⟨w1, hw1, hc1, hb1⟩ := mem_writesAt.mp ha1
        exact absurd (hb1 ▸ huniv) (fun hh => hdw w1 hw1 (hc.trans hc1.symm) hh.symm)
      · exact ih hd2 ha1 ha2
    · rw [if_neg hc] at h1 h2
      rw [List.nil_append] at h1 h2
      exact ih hd2 h1 h2

instance : IsAntisymm BlockData (fun x y => x.univ < y.univ) :=
  ⟨fun a b h1 h2 => absurd (lt_trans h1 h2) (lt_irrefl _)⟩

lemma sorted_strict {l : List BlockData}
    (hs : l.Sorted leUniv) (hd : l.Pairwise (fun x y : BlockData => x.univ ≠ y.univ)) :
    l.Pairwise (fun x y : BlockData => x.univ < y.univ) :=
  (hs.and hd).imp (fun h => lt_of_le_of_ne h.1 h.2)

/-- Re-sorting a sorted bucket with one appended fresh block equals sorting the
un-sorted writes with that block appended: with distinct universes the sorted
permutation is unique. -/
lemma sort_sort_append (W : List BlockData) (b : BlockData)
    (hdist : (W ++ [b]).Pairwise (fun x y : BlockData => x.univ ≠ y.univ)) :
    ((W.insertionSort leUniv) ++ [b]).insertionSort leUniv =
      (W ++ [b]).insertionSort leUniv := by
  have hperm1 : (((W.insertionSort leUniv) ++ [b]).insertionSort leUniv).Perm (W ++ [b]) :=
    (List.perm_insertionSort leUniv _).trans
      (List.Perm.append_right [b] (List.perm_insertionSort leUniv W))
  have hperm2 : ((W ++ [b]).insertionSort leUniv).Perm (W ++ [b]) :=
    List.perm_insertionSort leUniv _
  have hsym : ∀ {x y : BlockData}, (x.univ ≠ y.univ) → (y.univ ≠ x.univ) :=
    fun h hc => h hc.symm
  apply @List.eq_of_perm_of_sorted BlockData (fun x y : BlockData => x.univ < y.univ) _ _ _
    (hperm1.trans hperm2.symm)
  · exact sorted_strict (List.sorted_insertionSort _ _)
      ((List.Perm.pairwise_iff hsym hperm1).mpr hdist)
  · exact sorted_strict (List.sorted_insertionSort _ _)
      ((List.Perm.pairwise_iff hsym hperm2).mpr hdist)

lemma loadJson_upsert_parsed (fs : FS) (path : String)
    (entries : List (String × List BlockData)) :
    loadJson (upsert path (.parsed entries) fs) path = entries := by
  unfold loadJson
  rw [lookup_upsert_self]

lemma loadJson_upsert_other (fs : FS) (path : String) (st : FileState) (path1 : String)
    (h : path1 ≠ path) :
    loadJson (upsert path st fs) path1 = loadJson fs path1 := by
  unfold loadJson
  rw [lookup_upsert_ne _ _ _ h]

lemma bucketOf_create_other {fs : FS} {c0 : String} {block : BlockData} {fs1 : FS}
    {c1 : String}
    (h60 : (splitWS c0).length = 6)
    (hok : create_coordinate_block fs c0 block = .ok fs1)
    (hkey0 : joinSpace (splitWS c0) = c0) (hkey1 : joinSpace (splitWS c1) = c1)
    (hne : c1 ≠ c0) :
    bucketOf fs1 c1 = bucketOf fs c1 := by
  rw [create_eq h60] at hok
  cases hok
  unfold bucketOf
  by_cases hpath : jsonPath (splitWS c1) = jsonPath (splitWS c0)
  · rw [hpath, loadJson_upsert_parsed,
      lookup_upsert_ne _ _ _ (by rw [hkey1, hkey0]; exact hne)]
  · rw [loadJson_upsert_other _ _ _ _ hpath]

lemma writesFrom_cons (atts : List String) (p : DefaultPath) (u a : String)
    (rest : List (String × String)) :
    writesFrom atts p ((u, a) :: rest) =
      (strCoord_conv p.coord_dec, ⟨u, a, (p.imag : Int), usedAtts atts u a⟩) ::
        writesFrom atts (stateStep p) rest := rfl

/-- After the store loop, every canonical bucket holds exactly the ascending
sort of the blocks written there, provided universes are distinct among writes
sharing a coordinate. -/
lemma storeLoop_writes (atts : List String) :
    ∀ (pairs : List (String × String)) (p : DefaultPath) (fs : FS)
      (ws : List (String × BlockData)),
    (∀ m : Int, bucketOf fs (strCoord_conv m) =
      (writesAt ws (strCoord_conv m)).insertionSort leUniv) →
    univsDistinct (ws ++ writesFrom atts p pairs) →
    ∃ fs1 p1 m1,
      storeLoop atts fs p (strCoord_conv p.coord_dec) pairs = .ok (fs1, strCoord_conv m1, p1) ∧
      ∀ m : Int, bucketOf fs1 (strCoord_conv m) =
        (writesAt (ws ++ writesFrom atts p pairs) (strCoord_conv m)).insertionSort leUniv := by
  intro pairs
  induction pairs with
  | nil =>
    intro p fs ws hInv _
    refine ⟨fs, p, p.coord_dec, rfl, ?_⟩
    intro m
    rw [hInv m]
    rw [show writesFrom atts p [] = [] from rfl, List.append_nil]
  | cons pr rest ih =>
    intro p fs ws hInv hdist
    obtain ⟨u, a⟩ := pr
    rw [writesFrom_cons] at hdist
    set c0 := strCoord_conv p.coord_dec with hc0
    set b0 : BlockData := ⟨u, a, (p.imag : Int), usedAtts atts u a⟩ with hb0
    have h60 : (splitWS c0).length = 6 := splitWS_strCoord_length p.coord_dec
    have hsplitdist := List.pairwise_append.mp hdist
    have hcross := hsplitdist.2.2
    have hnomem : ¬ (b0.univ ∈ (bucketOf fs c0).map BlockData.univ) := by
      rw [hInv p.coord_dec]
      intro hmem
      obtain ⟨bl, hbl, hu⟩ := List.mem_map.mp hmem
      have hbl2 : bl ∈ writesAt ws c0 :=
        (List.perm_insertionSort leUniv _).mem_iff.mp hbl
      obtain ⟨w, hw, hwc, hwb⟩ := mem_writesAt.mp hbl2
      exact hcross w hw (c0, b0) (List.mem_cons_self _ _) hwc (by rw [hwb]; exact hu)
    have hins : insertedBlock (bucketOf fs c0) b0 = b0 := by
      unfold insertedBlock
      rw [if_neg hnomem]
    have hWpair : (writesAt ws c0 ++ [b0]).Pairwise
        (fun x y : BlockData => x.univ ≠ y.univ) := by
      rw [List.pairwise_append]
      refine ⟨writesAt_pairwise hsplitdist.1, List.pairwise_singleton _ _, ?_⟩
      intro x hx y hy
      rw [List.mem_singleton.mp hy]
      obtain ⟨w, hw, hwc, hwb⟩ := mem_writesAt.mp hx
      intro hc
      exact hcross w hw (c0, b0) (List.mem_cons_self _ _) hwc (by rw [hwb]; exact hc)
    have hcreate := @create_eq fs c0 b0 h60
    set fs2 : FS := upsert (jsonPath (splitWS c0))
      (.parsed (upsert (joinSpace (splitWS c0))
        ((bucketOf fs c0 ++ [insertedBlock (bucketOf fs c0) b0]).insertionSort leUniv)
        (loadJson fs (jsonPath (splitWS c0)))))
      fs with hfs2
    have hInv2 : ∀ m : Int, bucketOf fs2 (strCoord_conv m) =
        (writesAt (ws ++ [(c0, b0)]) (strCoord_conv m)).insertionSort leUniv := by
      intro m
      by_cases heq : strCoord_conv m = c0
      · rw [heq]
        have hsame := bucketOf_after_create h60 hcreate
        rw [hsame, hins, hInv p.coord_dec]
        rw [writesAt_append, writesAt_single]
        rw [if_pos rfl]
        exact sort_sort_append _ _ hWpair
      · have hother := bucketOf_create_other h60 hcreate
          (joinSpace_splitWS_strCoord p.coord_dec) (joinSpace_splitWS_strCoord m) heq
        rw [hother, hInv m, writesAt_append, writesAt_single]
        rw [if_neg (fun hcc => heq hcc.symm), List.append_nil]
    have hdist2 : univsDistinct ((ws ++ [(c0, b0)]) ++ writesFrom atts (stateStep p) rest) := by
      rw [List.append_assoc]
      exact hdist
    obtain ⟨fs1, p1, m1, hloop, hinv1⟩ := ih (stateStep p) fs2 (ws ++ [(c0, b0)]) hInv2 hdist2
    refine ⟨fs1, p1, m1, ?_, ?_⟩
    · show (create_coordinate_block fs c0 b0 >>= fun fsx =>
        storeLoop atts fsx p.step.2 p.step.1 rest) = _
      rw [hcreate, ebind_ok, step_fst p]
      exact hloop
    · intro m
      have hls : ws ++ writesFrom atts p ((u, a) :: rest) =
          (ws ++ [(c0, b0)]) ++ writesFrom atts (stateStep p) rest := by
        rw [writesFrom_cons, List.append_assoc, ← hc0, ← hb0, List.singleton_append]
      rw [hinv1 m, hls]

lemma restoreLoop_succ (fs : FS) (maxSteps : Option Nat) (fuel : Nat) (p : DefaultPath)
    (coord : String) (steps : Nat) :
    restoreLoop fs maxSteps (fuel + 1) p coord steps =
      match load_coordinate_data fs coord with
      | .error _ => none
      | .ok blocks =>
        if blocks.isEmpty then some []
        else
          match blocks.find? (fun bl => bl.univ == (p.imag : Int)) with
          | none => some []
          | some bl =>
            if maxStepsHit maxSteps (steps + 1) then
              some [(coord, p.imag, bl.user, bl.assistant)]
            else
              (restoreLoop fs maxSteps fuel p.step.2 p.step.1 (steps + 1)).map
                (fun l => (coord, p.imag, bl.user, bl.assistant) :: l) := rfl

lemma load_canonical (fs : FS) (m : Int) :
    load_coordinate_data fs (strCoord_conv m) = .ok (bucketOf fs (strCoord_conv m)) := by
  unfold load_coordinate_data
  rw [dmPaths_of_six (splitWS_strCoord_length m)]
  rfl

lemma find?_eq_of_unique {l : List BlockData} {q : BlockData → Bool} {b : BlockData}
    (hmem : b ∈ l) (hb : q b = true) (huniq : ∀ x ∈ l, q x = true → x = b) :
    l.find? q = some b := by
  induction l with
  | nil => simp at hmem
  | cons x xs ih =>
    by_cases hx : q x = true
    · have hxb := huniq x (List.mem_cons_self x xs) hx
      subst hxb
      exact List.find?_cons_of_pos xs hx
    · rw [List.find?_cons_of_neg xs (by simpa using hx)]
      rcases List.mem_cons.mp hmem with rfl | hmem2
      · exact absurd hb hx
      · exact ih hmem2 (fun y hy hqy => huniq y (List.mem_cons_of_mem x hy) hqy)

/-- Reading back along the walk: with every canonical bucket holding the sorted
writes, the write-suffix starting at walker state p is emitted exactly, and the
loop stops at the position after the last pair. -/
lemma restoreLoop_reads (atts : List String) (fsF : FS) (wsAll : List (String × BlockData))
    (hdistAll : univsDistinct wsAll)
    (hbucket : ∀ m : Int, bucketOf fsF (strCoord_conv m) =
      (writesAt wsAll (strCoord_conv m)).insertionSort leUniv) :
    ∀ (pairs : List (String × String)) (p : DefaultPath) (wsPre : List (String × BlockData))
      (steps : Nat),
    wsAll = wsPre ++ writesFrom atts p pairs →
    (∀ w ∈ wsAll, w.1 = coordAt p pairs.length →
      w.2.univ ≠ (imagAt p pairs.length : Int)) →
    restoreLoop fsF none (pairs.length + 1) p (strCoord_conv p.coord_dec) steps =
      some (traceFrom p pairs) := by
  intro pairs
  induction pairs with
  | nil =>
    intro p wsPre steps _ hend
    show restoreLoop fsF none (0 + 1) p (strCoord_conv p.coord_dec) steps = some []
    have hfind : ∀ bl ∈ bucketOf fsF (strCoord_conv p.coord_dec),
        ¬ (bl.univ == (p.imag : Int)) = true := by
      intro bl hbl
      rw [hbucket p.coord_dec] at hbl
      have hbl2 : bl ∈ writesAt wsAll (strCoord_conv p.coord_dec) :=
        (List.perm_insertionSort leUniv _).mem_iff.mp hbl
      obtain ⟨w, hw, hwc, hwb⟩ := mem_writesAt.mp hbl2
      have := hend w hw hwc
      rw [← hwb]
      simpa using this
    simp only [restoreLoop, load_canonical]
    by_cases hB : (bucketOf fsF (strCoord_conv p.coord_dec)).isEmpty
    · rw [if_pos hB]
    · rw [if_neg hB, List.find?_eq_none.mpr hfind]
  | cons pr rest ih =>
    intro p wsPre steps hws hend
    obtain ⟨u, a⟩ := pr
    rw [writesFrom_cons] at hws
    set c0 := strCoord_conv p.coord_dec with hc0
    set b0 : BlockData := ⟨u, a, (p.imag : Int), usedAtts atts u a⟩ with hb0
    have hw0 : (c0, b0) ∈ wsAll := by
      rw [hws]
      exact List.mem_append.mpr (Or.inr (List.mem_cons_self _ _))
    have hb0mem : b0 ∈ writesAt wsAll c0 :=
      mem_writesAt.mpr ⟨(c0, b0), hw0, rfl, rfl⟩
    have hBmem : b0 ∈ bucketOf fsF c0 := by
      rw [hc0, hbucket p.coord_dec]
      exact (List.perm_insertionSort leUniv _).mem_iff.mpr (by rw [← hc0]; exact hb0mem)
    have hnotempty : (bucketOf fsF c0).isEmpty = false := by
      rw [List.isEmpty_eq_false]
      intro hc
      rw [hc] at hBmem
      simp at hBmem
    have hfind : (bucketOf fsF c0).find? (fun bl => bl.univ == (p.imag : Int)) = some b0 := by
      apply find?_eq_of_unique hBmem (by simp [hb0])
      intro x hx hqx
      rw [hc0, hbucket p.coord_dec] at hx
      have hx2 : x ∈ writesAt wsAll (strCoord_conv p.coord_dec) :=
        (List.perm_insertionSort leUniv _).mem_iff.mp hx
      apply writesAt_unique hdistAll (by rw [← hc0] at hx2; exact hx2) hb0mem
      rw [show b0.univ = (p.imag : Int) from rfl]
      simpa using hqx
    have hrec := ih (stateStep p) (wsPre ++ [(c0, b0)]) (steps + 1)
      (by rw [hws, List.append_assoc, List.singleton_append]) ?hend2
    case hend2 =>
      intro w hw hwc
      exact hend w hw hwc
    have hload : load_coordinate_data fsF c0 = .ok (bucketOf fsF c0) := by
      rw [hc0]
      exact load_canonical fsF p.coord_dec
    show restoreLoop fsF none (rest.length + 1 + 1) p c0 steps = some (traceFrom p ((u, a) :: rest))
    rw [restoreLoop_succ fsF none (rest.length + 1) p c0 steps, hload]
    simp only [hnotempty, hfind, maxStepsHit, Bool.false_eq_true, if_false]
    rw [show p.step.2 = stateStep p from rfl,
      show p.step.1 = strCoord_conv (stateStep p).coord_dec from step_fst p]
    rw [hrec]
    rfl

lemma mem_writesFrom (atts : List String) :
    ∀ (pairs : List (String × String)) (p : DefaultPath) (w : String × BlockData),
    w ∈ writesFrom atts p pairs →
    ∃ k, k < pairs.length ∧ w.1 = coordAt p k ∧ w.2.univ = (imagAt p k : Int) := by
  intro pairs
  induction pairs with
  | nil => intro p w hw; simp [writesFrom] at hw
  | cons pr rest ih =>
    intro p w hw
    obtain ⟨u, a⟩ := pr
    rw [writesFrom_cons] at hw
    rcases List.mem_cons.mp hw with rfl | hw2
    · exact ⟨0, by simp, rfl, rfl⟩
    · obtain ⟨k, hk, hc, hu⟩ := ih (stateStep p) w hw2
      exact ⟨k + 1, by simpa using hk, hc, hu⟩

lemma univsDistinct_writesFrom (atts : List String) :
    ∀ (pairs : List (String × String)) (p : DefaultPath),
    (∀ j k, j < k → k < pairs.length →
      (coordAt p j, imagAt p j) ≠ (coordAt p k, imagAt p k)) →
    univsDistinct (writesFrom atts p pairs) := by
  intro pairs
  induction pairs with
  | nil => intro p _; exact List.Pairwise.nil
  | cons pr rest ih =>
    intro p hdist
    obtain ⟨u, a⟩ := pr
    rw [writesFrom_cons]
    constructor
    · intro w hw hcoord
      obtain ⟨k, hk, hc, hu⟩ := mem_writesFrom atts rest (stateStep p) w hw
      have hne := hdist 0 (k + 1) (Nat.succ_pos k) (by simpa using hk)
      intro huniv
      apply hne
      have hcoords : coordAt p 0 = coordAt p (k + 1) := by
        show strCoord_conv p.coord_dec = _
        rw [show coordAt p (k + 1) = coordAt (stateStep p) k from rfl, ← hc, ← hcoord]
      have himags : imagAt p 0 = imagAt p (k + 1) := by
        have : (p.imag : Int) = (imagAt (stateStep p) k : Int) := by rw [← hu, ← huniv]
        exact_mod_cast this
      rw [hcoords, himags]
    · exact ih (stateStep p)
        (fun j k hj hk => hdist (j + 1) (k + 1) (by omega) (by simpa using hk))

lemma writesFrom_end_fresh (atts : List String) (pairs : List (String × String))
    (p : DefaultPath)
    (hdist : ∀ k, k < pairs.length →
      (coordAt p k, imagAt p k) ≠ (coordAt p pairs.length, imagAt p pairs.length)) :
    ∀ w ∈ writesFrom atts p pairs, w.1 = coordAt p pairs.length →
      w.2.univ ≠ (imagAt p pairs.length : Int) := by
  intro w hw hwc huniv
  obtain ⟨k, hk, hc, hu⟩ := mem_writesFrom atts pairs p w hw
  apply hdist k hk
  have hcoords : coordAt p k = coordAt p pairs.length := hc ▸ hwc
  have himags : imagAt p k = imagAt p pairs.length := by
    have : (imagAt p k : Int) = (imagAt p pairs.length : Int) := by rw [← hu, huniv]
    exact_mod_cast this
  rw [hcoords, himags]

lemma traceFrom_map_pairs :
    ∀ (pairs : List (String × String)) (p : DefaultPath),
    (traceFrom p pairs).map (fun e => (e.2.2.1, e.2.2.2)) = pairs := by
  intro pairs
  induction pairs with
  | nil => intro p; rfl
  | cons pr rest ih =>
    intro p
    obtain ⟨u, a⟩ := pr
    show (_ :: (traceFrom (stateStep p) rest).map _) = _
    rw [ih (stateStep p)]

/-- Claim C1 (amended): importing a conversation bundle into an initially empty
store with (key, start) and restoring with the same (key, start) and no step
bound yields exactly the written blocks in write order, with (user, assistant)
pairs equal to the original pairing (a trailing unmatched user message paired
with the empty assistant string, as pairUp does) — provided the walker's
(coordinate string, imag) states at steps 0..n are pairwise distinct, where n
is the number of message pairs.  Without that proviso the claim fails (see the
counterexample): a walk-state cycle makes the restore loop emit earlier blocks
again and never terminate. -/
theorem c1_store_restore (blake2b8 : String → Nat) (start_list : List Nat) (key : String)
    (bundle : ConvoBundle)
    (hdist : ∀ j k, j < k → k ≤ (pairUp bundle.messages).length →
      (coordAt (DefaultPath.init blake2b8 start_list key) j,
        imagAt (DefaultPath.init blake2b8 start_list key) j) ≠
      (coordAt (DefaultPath.init blake2b8 start_list key) k,
        imagAt (DefaultPath.init blake2b8 start_list key) k)) :
    ∃ fs1,
      store_conversation blake2b8 start_list key bundle [] = .ok fs1 ∧
      restore_conversation blake2b8 start_list key fs1 none
          ((pairUp bundle.messages).length + 1) =
        some (traceFrom (DefaultPath.init blake2b8 start_list key) (pairUp bundle.messages)) ∧
      (traceFrom (DefaultPath.init blake2b8 start_list key) (pairUp bundle.messages)).map
          (fun e => (e.2.2.1, e.2.2.2)) = pairUp bundle.messages := by
  set p0 := DefaultPath.init blake2b8 start_list key with hp0
  set pairs := pairUp bundle.messages with hpairs
  set ws := writesFrom bundle.attachments p0 pairs with hwsdef
  have hdistWs : univsDistinct ws :=
    univsDistinct_writesFrom _ pairs p0 (fun j k hj hk => hdist j k hj (by omega))
  have hInv0 : ∀ m : Int, bucketOf [] (strCoord_conv m) =
      (writesAt ([] : List (String × BlockData)) (strCoord_conv m)).insertionSort leUniv := by
    intro m
    rfl
  have hdist0 : univsDistinct (([] : List (String × BlockData)) ++ ws) := by
    rw [List.nil_append]
    exact hdistWs
  obtain ⟨fs1, p1, m1, hloop, hinv⟩ :=
    storeLoop_writes bundle.attachments pairs p0 [] [] hInv0 hdist0
  have hstore : store_conversation blake2b8 start_list key bundle [] = .ok fs1 := by
    show (storeLoop bundle.attachments [] p0 (strCoord_conv p0.coord_dec) pairs >>=
      fun r => .ok r.1) = _
    rw [hloop, ebind_ok]
  have hinv2 : ∀ m : Int, bucketOf fs1 (strCoord_conv m) =
      (writesAt ws (strCoord_conv m)).insertionSort leUniv := by
    intro m
    have h := hinv m
    rwa [List.nil_append] at h
  have hend : ∀ w ∈ ws, w.1 = coordAt p0 pairs.length →
      w.2.univ ≠ (imagAt p0 pairs.length : Int) :=
    writesFrom_end_fresh _ pairs p0 (fun k hk => hdist k pairs.length hk (le_refl _))
  have hrestore := restoreLoop_reads bundle.attachments fs1 ws hdistWs hinv2 pairs p0 [] 0
    (by rw [List.nil_append]) hend
  exact ⟨fs1, hstore, hrestore, traceFrom_map_pairs pairs p0⟩

/-- Claim C1 witness: a one-pair conversation stored and restored at the
all-zero start with the constant-zero hash model; the two walk states visited
share a coordinate but have different imag, so they are distinct pairs. -/
theorem c1_store_restore_witness :
    ∃ fs1,
      store_conversation (fun _ => 0) [0, 0, 0, 0, 0, 0] "k" ⟨"T", "i", ["u", "a"], []⟩ [] =
        .ok fs1 ∧
      restore_conversation (fun _ => 0) [0, 0, 0, 0, 0, 0] "k" fs1 none
          ((pairUp (["u", "a"] : List String)).length + 1) =
        some (traceFrom (DefaultPath.init (fun _ => 0) [0, 0, 0, 0, 0, 0] "k")
          (pairUp ["u", "a"])) ∧
      (traceFrom (DefaultPath.init (fun _ => 0) [0, 0, 0, 0, 0, 0] "k")
          (pairUp ["u", "a"])).map (fun e => (e.2.2.1, e.2.2.2)) = pairUp ["u", "a"] :=
  c1_store_restore (fun _ => 0) [0, 0, 0, 0, 0, 0] "k" ⟨"T", "i", ["u", "a"], []⟩
    (by
      intro j k hjk hk1
      have hlen : (pairUp (ConvoBundle.mk "T" "i" ["u", "a"] []).messages).length = 1 := by
        decide
      rw [hlen] at hk1
      have hk : k = 1 := by omega
      have hj : j = 0 := by omega
      subst hk
      subst hj
      decide)

/-- A hash model that drives the walker into an immediate 2-cycle of full
(coord_dec, imag) states from the start below: the seeds land on a solution of
the cycle equations of the real and imaginary steps. -/
def b8Star (s : String) : Nat :=
  if s = "27 59 13 9 47 44|k" then 268435457
  else if s = "34825514367|k" then 44831960448
  else 0

def bundleStar : ConvoBundle := ⟨"T", "xyz", ["u0", "a0", "u1", "a1", "u2", "a2"], []⟩

def pStar : DefaultPath := DefaultPath.init b8Star [27, 59, 13, 9, 47, 44] "k"

def qStar : DefaultPath := stateStep pStar

/-- The store of bundleStar writes blocks at the two cycle coordinates; the
third write collides with the first (the walker state repeats), so its
universe is bumped to 268435458. -/
def fsStar : FS :=
  [("data/44/47/9/13/59.json",
    .parsed [("27 59 13 9 47 44",
      [⟨"u0", "a0", 268435457, []⟩, ⟨"u2", "a2", 268435458, []⟩])]),
   ("data/37/21/42/38/58.json",
    .parsed [("8 58 38 42 21 37", [⟨"u1", "a1", 2415919105, []⟩])])]

lemma stateStep_qStar : stateStep qStar = pStar := by rfl

lemma restore_cycle_none : ∀ fuel : Nat,
    (∀ steps, restoreLoop fsStar none fuel pStar "27 59 13 9 47 44" steps = none) ∧
    (∀ steps, restoreLoop fsStar none fuel qStar "8 58 38 42 21 37" steps = none) := by
  intro fuel
  induction fuel with
  | zero => exact ⟨fun _ => rfl, fun _ => rfl⟩
  | succ fuel ih =>
    refine ⟨fun steps => ?_, fun steps => ?_⟩
    · rw [show restoreLoop fsStar none (fuel + 1) pStar "27 59 13 9 47 44" steps =
          (restoreLoop fsStar none fuel qStar "8 58 38 42 21 37" (steps + 1)).map
            (fun l => ("27 59 13 9 47 44", 268435457, "u0", "a0") :: l) from rfl]
      rw [ih.2 (steps + 1)]
      rfl
    · rw [show restoreLoop fsStar none (fuel + 1) qStar "8 58 38 42 21 37" steps =
          (restoreLoop fsStar none fuel pStar "27 59 13 9 47 44" (steps + 1)).map
            (fun l => ("8 58 38 42 21 37", 2415919105, "u1", "a1") :: l) from rfl]
      rw [ih.1 (steps + 1)]
      rfl

/-- Claim C1 counterexample: for the three-pair bundle bundleStar stored from
start "27 59 13 9 47 44" with key "k" under the cycling hash model b8Star, the
walker revisits its exact state every two steps; the third block is written
with a bumped universe, and restore_conversation loops forever re-emitting the
first two blocks, never yielding the written blocks.  The claim as stated —
with no distinct-states proviso — is therefore false. -/
theorem c1_store_restore_counterexample :
    ¬ C1Property b8Star [27, 59, 13, 9, 47, 44] "k" bundleStar := by
  rintro ⟨fs, fuel, out, hstore, hrest, -, -⟩
  rw [show store_conversation b8Star [27, 59, 13, 9, 47, 44] "k" bundleStar [] = .ok fsStar
    from rfl] at hstore
  cases hstore
  have hnone : restore_conversation b8Star [27, 59, 13, 9, 47, 44] "k" fsStar none fuel =
      none := by
    show restoreLoop fsStar none fuel (DefaultPath.init b8Star [27, 59, 13, 9, 47, 44] "k")
      (strCoord_conv (DefaultPath.init b8Star [27, 59, 13, 9, 47, 44] "k").coord_dec) 0 = none
    rw [show strCoord_conv (DefaultPath.init b8Star [27, 59, 13, 9, 47, 44] "k").coord_dec =
      "27 59 13 9 47 44" from rfl]
    exact (restore_cycle_none fuel).1 0
  rw [hnone] at hrest
  cases hrest

end SML
